import Mathlib

/-!
Verification development for the kaeshi-migrate schema-migration manager.

Shallow embedding of the Go sources:
* `pkg/validate/splitter.go`          — `GenericSplit`
* `pkg/validate/postgres/dialect.go`  — `Dialect.ParseBlocks`
* `pkg/validate/confirm.go` and the `validate` package — `ValidateSQL`, `validateBlock`
* `internal/migrate/manager` — `Manager.{Up, Down, Steps, SafeForce, withRetry}`

Machine integers: Go `uint` arithmetic is modelled as `Nat` with explicit
`% 2^64` where the source can wrap (`SafeForce`'s `uint(target)` and `cur-1`).
Byte-level string scanning is modelled over `List Char`; this coincides with
the Go byte loop on ASCII input (the Go code indexes bytes and casts single
bytes to runes for classification).
-/

namespace KaeshiMigrate

/-- Decidable equality for `Except`, used to settle concrete parse results. -/
instance {ε α : Type} [DecidableEq ε] [DecidableEq α] :
    DecidableEq (Except ε α)
  | .error e, .error e' => decidable_of_iff (e = e') (by simp)
  | .error _, .ok _ => isFalse (by intro h; cases h)
  | .ok _, .error _ => isFalse (by intro h; cases h)
  | .ok a, .ok a' => decidable_of_iff (a = a') (by simp)

/-! ### Statement splitter — `pkg/validate/splitter.go`, `GenericSplit` -/

/-- The single-quote character, written via its code point. -/
def squoteChar : Char := Char.ofNat 39

/-- Character class used by the dollar-tag scan in `GenericSplit`:
Go `unicode.IsLetter(rune(b)) || unicode.IsDigit(rune(b)) || b == '_'`
(ASCII fragment). -/
def wordChar (c : Char) : Bool := c.isAlpha || c.isDigit || c == '_'

/-- Go `strings.TrimSpace` on a character list (ASCII whitespace). -/
def trimChars (l : List Char) : List Char :=
  ((l.dropWhile Char.isWhitespace).reverse.dropWhile Char.isWhitespace).reverse

/-- The splitter's `flush` helper: trim the pending statement buffer and emit
it unless it is empty. -/
def flushStmt (buf : List Char) : List String :=
  let t := trimChars buf
  if t.isEmpty then [] else [String.mk t]

/-- Scanner mode of `GenericSplit`: the flags
`inSQuote / inDQuote / inLineComment / inBlockComment / dollarTag` of the Go
loop (at most one of which is active at a time). -/
inductive SplitMode where
  | normal
  | lineComment
  | blockComment
  | squote
  | dquote
  | dollar (tag : List Char)
deriving DecidableEq

/-- The one-character lookahead of the Go loop: `next := sqlStr[i+1]` when
in range and the zero byte otherwise. -/
def nextChar (r : List Char) : Char := (r.head?).getD (Char.ofNat 0)

/-- The main loop of `GenericSplit`, one case per scanner mode.  `buf` is
the Go `strings.Builder` contents; the produced statements are returned
directly instead of through an accumulator variable.  The first argument is
recursion fuel: every step consumes at least one input character, so any
fuel at least the input length makes the fuel-exhausted arm unreachable
(`splitGo` below always supplies exactly the input length). -/
def splitRun : Nat → SplitMode → List Char → List Char → List String
  | _, _, buf, [] => flushStmt buf
  | 0, _, buf, _ :: _ => flushStmt buf
  | fuel + 1, .lineComment, buf, c :: r =>
      splitRun fuel (if c = '\n' then .normal else .lineComment) (buf ++ [c]) r
  | fuel + 1, .blockComment, buf, c :: r =>
      if c = '*' ∧ nextChar r = '/' then
        splitRun fuel .normal (buf ++ ['*', '/']) r.tail
      else splitRun fuel .blockComment (buf ++ [c]) r
  | fuel + 1, .squote, buf, c :: r =>
      if c = squoteChar then
        if nextChar r = squoteChar then
          splitRun fuel .squote (buf ++ [c, squoteChar]) r.tail
        else splitRun fuel .normal (buf ++ [c]) r
      else splitRun fuel .squote (buf ++ [c]) r
  | fuel + 1, .dquote, buf, c :: r =>
      if c = '"' then
        if nextChar r = '"' then
          splitRun fuel .dquote (buf ++ [c, '"']) r.tail
        else splitRun fuel .normal (buf ++ [c]) r
      else splitRun fuel .dquote (buf ++ [c]) r
  | fuel + 1, .dollar tag, buf, c :: r =>
      if tag.isPrefixOf (c :: r) then
        splitRun fuel .normal (buf ++ c :: tag) (r.drop (tag.length - 1))
      else
        splitRun fuel (.dollar tag) (buf ++ [c]) r
  | fuel + 1, .normal, buf, c :: r =>
      if c = '-' ∧ nextChar r = '-' then
        splitRun fuel .lineComment (buf ++ ['-', '-']) r.tail
      else if c = '/' ∧ nextChar r = '*' then
        splitRun fuel .blockComment (buf ++ ['/', '*']) r.tail
      else if c = squoteChar then
        splitRun fuel .squote (buf ++ [c]) r
      else if c = '"' then
        splitRun fuel .dquote (buf ++ [c]) r
      else if c = '$' ∧ (r.takeWhile (fun ch => ch ≠ '$')).all wordChar
          ∧ (r.drop (r.takeWhile (fun ch => ch ≠ '$')).length).head? = some '$' then
        -- opening-tag scan succeeded: the word chars up to the next `$`
        splitRun fuel
          (.dollar ('$' :: r.takeWhile (fun ch => ch ≠ '$') ++ ['$']))
          (buf ++ '$' :: r.takeWhile (fun ch => ch ≠ '$') ++ ['$'])
          (r.drop ((r.takeWhile (fun ch => ch ≠ '$')).length + 1))
      else if c = ';' then
        flushStmt buf ++ splitRun fuel .normal [] r
      else
        splitRun fuel .normal (buf ++ [c]) r

/-- The splitter loop with the canonical fuel (the input length). -/
def splitGo (m : SplitMode) (buf input : List Char) : List String :=
  splitRun input.length m buf input

/-- `GenericSplit` from `pkg/validate/splitter.go`.  The Go function also
returns an `error` which is always `nil`; it is omitted. -/
def GenericSplit (s : String) : List String := splitGo .normal [] s.data

/-! ### PostgreSQL dialect — `pkg/validate/postgres/dialect.go` -/

/-- ASCII uppercase of one character (Go `strings.ToUpper` on the ASCII
fragment relevant to keyword markers). -/
def charUpper (c : Char) : Char :=
  if 'a' ≤ c ∧ c ≤ 'z' then Char.ofNat (c.toNat - 32) else c

/-- Go `strings.TrimSuffix(s, ";")`: remove one trailing semicolon. -/
def stripSemiSuffix (l : List Char) : List Char :=
  if l.getLast? = some ';' then l.dropLast else l

/-- The statement normalisation used by `ParseBlocks`:
`strings.ToUpper(strings.TrimSpace(strings.TrimSuffix(s, ";")))`. -/
def pgNorm (s : String) : String :=
  String.mk ((trimChars (stripSemiSuffix s.data)).map charUpper)

/-- Does the statement match the `BEGIN` marker arm of the `switch`? -/
def isBeginMark (s : String) : Bool :=
  pgNorm s = "BEGIN" ∨ pgNorm s = "BEGIN TRANSACTION" ∨
    pgNorm s = "START TRANSACTION"

/-- Does the statement match the `COMMIT`/`END`/`ROLLBACK` marker arm? -/
def isEndMark (s : String) : Bool :=
  pgNorm s = "COMMIT" ∨ pgNorm s = "END" ∨ pgNorm s = "ROLLBACK"

/-- Loop body of the PostgreSQL `ParseBlocks`, carrying the accumulated
`blocks`, the open run `cur` and the `inBlock` flag. -/
def parseBlocksGo : List (List String) → List String → Bool → List String →
    Except String (List (List String))
  | blocks, cur, inBlock, [] =>
      if inBlock then .error "unterminated BEGIN block"
      else
        let blocks := if cur.isEmpty then blocks else blocks ++ [cur]
        if blocks.isEmpty then .ok [[]] else .ok blocks
  | blocks, cur, inBlock, s :: rest =>
      if isBeginMark s then
        if inBlock then .error "nested BEGIN not allowed"
        else parseBlocksGo (if cur.isEmpty then blocks else blocks ++ [cur]) [] true rest
      else if isEndMark s then
        if inBlock then parseBlocksGo (blocks ++ [cur]) [] false rest
        else .error "COMMIT without BEGIN"
      else parseBlocksGo blocks (cur ++ [s]) inBlock rest

/-- `Dialect.ParseBlocks` for PostgreSQL. -/
def ParseBlocksPG (stmts : List String) : Except String (List (List String)) :=
  parseBlocksGo [] [] false stmts

/-! ### SQL validator — `pkg/validate` (`ValidateSQL`, `validateBlock`) and
`pkg/validate/confirm` (`FallbackConfirm`).

The database a validation runs against is an abstract state `σ`; the
dialect's `ValidateStmt` is a state transformer on the transaction-local
copy of that state.  Transactions are modelled explicitly: `db.Begin()`
snapshots the durable state, `txCommitFin` would install the transaction
state as the new durable state, `txRollbackFin` discards it.  Observable
actions are recorded as `VEvent`s. -/

/-- `ValidationError` from `pkg/validate`: `(statement, reason, cause, type)`. -/
structure ValidationError where
  statement : String
  reason : String
  cause : Option String
  type : String
deriving DecidableEq

/-- Events observable during a `ValidateSQL` call. -/
inductive VEvent where
  | openDB
  | txBegin
  | txCommit
  | txRollback
deriving DecidableEq

/-- Finalising a transaction by rollback: the durable state is kept, the
transaction-local state is discarded. -/
def txRollbackFin {σ : Type} (db : σ) (_tx : σ) : σ := db

/-- Finalising a transaction by commit: the transaction-local state becomes
durable.  `validateBlock` never calls this; it is here so that the rollback
guarantee is a statement about which finaliser the code uses. -/
def txCommitFin {σ : Type} (_db : σ) (tx : σ) : σ := tx

/-- `ValidateOptions` from `pkg/validate`.  `confirmFn` models the Go
`ConfirmFunc` callback `(prompt) → (bool, error)`; `none` means no callback
is configured. -/
structure ValidateOptions where
  skipOnConfirmation : Bool
  confirmFn : Option (String → Bool × Option String)
  timeout : Nat := 0

/-- Dialect capability set (`validate.Dialect`), over an abstract database
state `σ`.  `validateStmt` is the transaction-local execution of one
statement, which may fail. -/
structure DialectM (σ : Type) where
  splitStatements : String → Except String (List String)
  parseBlocks : List String → Except String (List (List String))
  statementType : String → String
  isCheckable : String → Bool
  isSafeInTxn : String → Bool
  validateStmt : σ → String → Except String σ

/-- `confirm.FallbackConfirm`: returns `none` on an affirmative answer and
`some errMsg` otherwise (nil callback, callback error, or refusal). -/
def FallbackConfirm (fn : Option (String → Bool × Option String))
    (stmt reason : String) : Option String :=
  match fn with
  | none => some ("confirmation required to skip automatic validation: " ++ reason)
  | some f =>
      match f (reason ++ "\n" ++ stmt) with
      | (_, some e) => some e
      | (true, none) => none
      | (false, none) =>
          some ("confirmation required to skip automatic validation: " ++ reason)

/-- The statement loop of `validateBlock`, threading the transaction-local
state `tx`. -/
def validateBlockLoop {σ : Type} (d : DialectM σ) (opts : ValidateOptions)
    (tx : σ) : List String → Except ValidationError σ
  | [] => .ok tx
  | stmt :: rest =>
      let trimmed := stmt.trim
      let typ := d.statementType trimmed
      if ¬ d.isCheckable trimmed then
        if opts.skipOnConfirmation then
          match FallbackConfirm opts.confirmFn trimmed
              "statement not automatically checkable" with
          | some e => .error ⟨trimmed, "confirmation failed", some e, typ⟩
          | none => validateBlockLoop d opts tx rest
        else
          .error ⟨trimmed, "statement not automatically checkable",
            some "confirmation required to skip automatic validation", typ⟩
      else if ¬ d.isSafeInTxn trimmed then
        if opts.skipOnConfirmation then
          match FallbackConfirm opts.confirmFn trimmed
              "cannot run in transaction" with
          | some e => .error ⟨trimmed, "confirmation failed", some e, typ⟩
          | none => validateBlockLoop d opts tx rest
        else
          .error ⟨trimmed, "cannot run in transaction", none, typ⟩
      else
        match d.validateStmt tx trimmed with
        | .error e => .error ⟨trimmed, "execution failed", some e, typ⟩
        | .ok tx' => validateBlockLoop d opts tx' rest

/-- `validateBlock`: opens a transaction on `db`, runs the statements of the
block inside it, and finalises the transaction with the deferred
`tx.Rollback()` on every path (the function contains no commit path).
Returns the error (if any), the resulting durable database state, and the
transaction events. -/
def validateBlock {σ : Type} (d : DialectM σ) (opts : ValidateOptions)
    (db : σ) (block : List String) :
    Option ValidationError × σ × List VEvent :=
  let tx0 := db
  match validateBlockLoop d opts tx0 block with
  | .ok txEnd => (none, txRollbackFin db txEnd, [.txBegin, .txRollback])
  | .error e => (some e, txRollbackFin db tx0, [.txBegin, .txRollback])

/-- Top-level errors of `ValidateSQL`. -/
inductive VErr where
  | precond (msg : String)
  | dialect (msg : String)
  | block (e : ValidationError)
deriving DecidableEq

/-- The per-block loop at the end of `ValidateSQL`: validate every block
against the (shared) database, aborting on the first failure. -/
def runBlocks {σ : Type} (d : DialectM σ) (opts : ValidateOptions) (db : σ) :
    List (List String) → (Bool × Option VErr) × σ × List VEvent
  | [] => ((true, none), db, [])
  | b :: bs =>
      match validateBlock d opts db b with
      | (some e, db', evs) => ((false, some (.block e)), db', evs)
      | (none, db', evs) =>
          match runBlocks d opts db' bs with
          | (res, db'', evs') => (res, db'', evs ++ evs')

/-- `validate.ValidateSQL`: precondition checks, statement splitting, block
parsing, then (and only then) opening the database and validating each
block.  Returns the Go `(ok, err)` pair together with the final durable
database state and the event trace. -/
def ValidateSQL {σ : Type} (sqlText : String) (dbConfig : List (String × String))
    (opts : ValidateOptions) (d : DialectM σ) (db : σ) :
    (Bool × Option VErr) × σ × List VEvent :=
  match dbConfig.lookup "dsn" with
  | none => ((false, some (.precond "dbConfig missing dsn")), db, [])
  | some dsn =>
      if dsn.trim = "" then ((false, some (.precond "dbConfig missing dsn")), db, [])
      else
      let opts := if opts.timeout = 0 then { opts with timeout := 4000 } else opts
      let trimmed := sqlText.trim
      if trimmed = "" then ((false, some (.precond "empty SQL statement")), db, [])
      else if 100 * 1024 < trimmed.utf8ByteSize then
        ((false, some (.precond "SQL input too large")), db, [])
      else
        match d.splitStatements trimmed with
        | .error e => ((false, some (.dialect e)), db, [])
        | .ok stmts =>
            if stmts.length = 0 then
              ((false, some (.precond "no statements found")), db, [])
            else if 100 < stmts.length then
              ((false, some (.precond "too many statements")), db, [])
            else
              match d.parseBlocks stmts with
              | .error e => ((false, some (.dialect e)), db, [])
              | .ok blocks =>
                  match runBlocks d opts db blocks with
                  | (res, db', evs) => (res, db', VEvent.openDB :: evs)

/-! ### Migration manager — `internal/migrate/manager` (`manager.go`)

The persisted state is `(version, dirty)` from `schema_migrations` (a nil
version is treated as `0`, matching the code's handling of `ErrNilVersion`),
the append-only `migrations_history` table, and the `*.up.sql` / `*.down.sql`
files on disk.  The underlying golang-migrate engine is an external
collaborator; it is modelled as an oracle `EngineModel` giving the outcome of
each apply/rollback attempt and the `(version, dirty)` pair its `Version()`
reports afterwards.  The per-file `ValidateSQL` call is abstracted by an
oracle `validateOK` on the file content (its internals are modelled above).
Observable side effects are recorded as `MEvent`s in call order. -/

/-- A row of `migrations_history`.  List position stands for the serial `id`
(later rows in the list were inserted later). -/
structure HistoryRow where
  action : String
  version : Nat
  committed : Bool
  sha256 : String
deriving DecidableEq

/-- An on-disk migration file: base name, numeric version parsed from the
name, sha256 of its current content (`fileHash` in `util.go`), and content. -/
structure MigFile where
  base : String
  version : Nat
  hash : String
  content : String
deriving DecidableEq

/-- Manager-level persistent state. -/
structure MgrState where
  version : Nat
  dirty : Bool
  history : List HistoryRow
  files : List MigFile
  downFiles : List MigFile
deriving DecidableEq

/-- Observable side effects of a manager operation. -/
inductive MEvent where
  | engineCall (k : Nat)
  | sleep (seconds : Nat)
  | observeDuration
  | addApplied (n : Nat)
  | addRollback (n : Nat)
  | insertHistory (action : String) (version : Nat) (sha : String)
  | engineForce (target : Nat)
  | validateFile (base : String)
deriving DecidableEq

/-- `Manager.VersionCommitted`: the `committed` flag of the newest history
row for the version (`ORDER BY id DESC LIMIT 1`); `false` when no row
exists (`sql.ErrNoRows`). -/
def versionCommitted (h : List HistoryRow) (v : Nat) : Bool :=
  match (h.filter (fun row => row.version = v)).getLast? with
  | none => false
  | some row => row.committed

/-- The `SELECT sha256 ... WHERE action='up' AND version=$1 AND
committed=true ORDER BY id DESC LIMIT 1` query of `Up`'s strict-hash check;
`none` models `sql.ErrNoRows`. -/
def latestCommittedUpSha (h : List HistoryRow) (v : Nat) : Option String :=
  ((h.filter (fun row =>
    row.action = "up" ∧ row.version = v ∧ row.committed)).getLast?).map
    (fun row => row.sha256)

/-- The `SELECT true FROM migrations_history WHERE committed = true LIMIT 1`
query of `Down`. -/
def anyCommitted (h : List HistoryRow) : Bool := h.any (fun row => row.committed)

/-- `recordHistory`: append a row with `committed=false` and no hash. -/
def recordHistory (h : List HistoryRow) (action : String) (v : Nat) :
    List HistoryRow :=
  h ++ [⟨action, v, false, ""⟩]

/-- Insertion sort by base name, modelling `sort.Strings` over the glob
result (all globbed paths share the directory prefix). -/
def insertByBase (f : MigFile) : List MigFile → List MigFile
  | [] => [f]
  | g :: gs => if f.base ≤ g.base then f :: g :: gs else g :: insertByBase f gs

/-- Sorted-by-name view of a file list. -/
def sortByBase : List MigFile → List MigFile
  | [] => []
  | f :: fs => insertByBase f (sortByBase fs)

/-- `Manager.pendingUpFiles`: name-sorted `*.up.sql` files whose parsed
version exceeds `cur`. -/
def pendingUpFiles (st : MgrState) (cur : Nat) : List MigFile :=
  (sortByBase st.files).filter (fun f => cur < f.version)

/-- `Manager.pendingDownFiles`: `{cur}_*.down.sql` (unpadded decimal prefix
in the glob pattern), reverse name order. -/
def pendingDownFiles (st : MgrState) (cur : Nat) : List MigFile :=
  ((sortByBase st.downFiles).filter
    (fun f => (Nat.repr cur ++ "_").isPrefixOf f.base)).reverse

/-- `Manager.lastFileVersion`: highest version among `*.up.sql` files. -/
def lastFileVersion (st : MgrState) : Nat :=
  st.files.foldl (fun m f => max m f.version) 0

/-- Errors returned by manager operations. -/
inductive MgrErr where
  | dirtyBefore (v : Nat)
  | versionLE (v cur : Nat)
  | committedVersion (v : Nat)
  | hashMismatch (v : Nat) (fileHash dbHash : String)
  | invalidSQL (base : String)
  | engineFailed (msg : String)
  | dirtyAfter (v : Nat)
  | notDirty (v : Nat)
  | exceedsLast (target : Int) (last : Nat)
  | forceWindow (cur : Nat) (target : Int)
deriving DecidableEq

/-- Outcome of one invocation of the wrapped engine operation inside
`withRetry`: `ok` (nil error), `noChange` (`migrate.ErrNoChange`), or a
failure carrying its message. -/
inductive Att where
  | ok
  | noChange
  | fail (msg : String)
deriving DecidableEq

/-- Oracle for the external golang-migrate engine during one manager
operation: the outcome of the k-th invocation of the underlying op, and the
`(version, dirty)` its `Version()` reports after the retry phase. -/
structure EngineModel where
  attempts : Nat → Att
  afterVersion : Nat
  afterDirty : Bool

/-- Loop body of `Manager.withRetry`: `fuel` is the number of remaining
iterations of `for attempt := 0; attempt <= maxRetries; attempt++`, `k` the
current attempt index, `last` the `err` variable.  Returns the final error,
the number of invocations of the wrapped op, and the events (sleeps and
engine calls) in order. -/
def retryLoop (att : Nat → Att) : Nat → Nat → Option String →
    Option String × Nat × List MEvent
  | 0, _, last => (last, 0, [])
  | fuel + 1, k, _ =>
      let evs := (if 0 < k then [MEvent.sleep k] else []) ++ [MEvent.engineCall k]
      match att k with
      | .ok => (none, 1, evs)
      | .noChange => (none, 1, evs)
      | .fail e =>
          match retryLoop att fuel (k + 1) (some e) with
          | (res, n, evs') => (res, n + 1, evs ++ evs')

/-- `Manager.withRetry`.  The Go loop runs `max(0, maxRetries+1)` iterations
unless an attempt returns nil or `ErrNoChange`; before attempt `k > 0` it
sleeps `k` seconds; it returns the `err` variable, which is the last
attempt's error, or nil when no iteration ran. -/
def withRetry (maxRetries : Int) (att : Nat → Att) :
    Option String × Nat × List MEvent :=
  retryLoop att (maxRetries + 1).toNat 0 none

/-- Step 1 of `Up`: reject a candidate whose version is `≤` the current DB
version, or whose version is already committed (first offender wins). -/
def upCheckVersions (st : MgrState) (before : Nat) : List MigFile → Option MgrErr
  | [] => none
  | f :: fs =>
      if f.version ≤ before then some (.versionLE f.version before)
      else if versionCommitted st.history f.version then
        some (.committedVersion f.version)
      else upCheckVersions st before fs

/-- Step 2 of `Up` (strict-hash mode): for each candidate, compare the file
hash with the newest committed `up` row's recorded hash; rows are skipped
when absent, and an empty recorded hash is not compared. -/
def upCheckHash (st : MgrState) : List MigFile → Option MgrErr
  | [] => none
  | f :: fs =>
      match latestCommittedUpSha st.history f.version with
      | none => upCheckHash st fs
      | some dbHash =>
          if ¬ dbHash = "" ∧ ¬ dbHash = f.hash then
            some (.hashMismatch f.version f.hash dbHash)
          else upCheckHash st fs

/-- Step 3 of `Up`: validate each candidate file's content via `ValidateSQL`
(abstracted by the `validateOK` oracle), aborting on the first failure. -/
def upValidate (validateOK : String → Bool) : List MigFile →
    List MEvent × Option MgrErr
  | [] => ([], none)
  | f :: fs =>
      if validateOK f.content then
        match upValidate validateOK fs with
        | (evs, res) => (MEvent.validateFile f.base :: evs, res)
      else ([MEvent.validateFile f.base], some (.invalidSQL f.base))

/-- Step 5 of `Up`: record an `up` history row with the file hash for every
candidate version in `(before, after]`, in file order. -/
def upRecordHistory (before after : Nat) :
    List MigFile → List HistoryRow → List HistoryRow × List MEvent
  | [], h => (h, [])
  | f :: fs, h =>
      if before < f.version ∧ f.version ≤ after then
        match upRecordHistory before after fs
            (h ++ [⟨"up", f.version, false, f.hash⟩]) with
        | (h', evs) => (h', MEvent.insertHistory "up" f.version f.hash :: evs)
      else upRecordHistory before after fs h

/-- The execution phase of `Up` (steps 4-5 and the final switch): retry the
engine `Up`, observe the duration, read the post state, record history on a
successful version advance, then report the outcome. -/
def upExec (st : MgrState) (maxRetries : Int) (eng : EngineModel)
    (upFiles : List MigFile) (vEvs : List MEvent) :
    Option MgrErr × MgrState × List MEvent :=
  let before := st.version
  match withRetry maxRetries eng.attempts with
  | (rErr, _n, rEvs) =>
      let evs := vEvs ++ rEvs ++ [MEvent.observeDuration]
      let after := eng.afterVersion
      let histEv :=
        if rErr = none ∧ before < after then
          upRecordHistory before after upFiles st.history
        else (st.history, [])
      let st' := { st with version := after, dirty := eng.afterDirty,
                           history := histEv.1 }
      match rErr with
      | some e => (some (.engineFailed e), st', evs ++ histEv.2)
      | none =>
          if eng.afterDirty then (some (.dirtyAfter after), st', evs ++ histEv.2)
          else (none, st', evs ++ histEv.2)

/-- `Manager.Up`. -/
def Up (st : MgrState) (maxRetries : Int) (strictHash : Bool)
    (validateOK : String → Bool) (eng : EngineModel) :
    Option MgrErr × MgrState × List MEvent :=
  let before := st.version
  if st.dirty then (some (.dirtyBefore before), st, [])
  else
    let upFiles := pendingUpFiles st before
    if upFiles.isEmpty then (none, st, [])
    else
      match upCheckVersions st before upFiles with
      | some e => (some e, st, [])
      | none =>
          match (if strictHash then upCheckHash st upFiles else none) with
          | some e => (some e, st, [])
          | none =>
              match upValidate validateOK upFiles with
              | (vEvs, some e) => (some e, st, vEvs)
              | (vEvs, none) => upExec st maxRetries eng upFiles vEvs

/-- The execution phase of `Down` (after the dirty and committed checks). -/
def downExec (st : MgrState) (maxRetries : Int) (eng : EngineModel) :
    Option MgrErr × MgrState × List MEvent :=
  let before := st.version
  match withRetry maxRetries eng.attempts with
  | (rErr, _n, rEvs) =>
      let evs := rEvs ++ [MEvent.observeDuration]
      let after := eng.afterVersion
      let st' := { st with version := after, dirty := eng.afterDirty }
      match rErr with
      | some e => (some (.engineFailed e), st', evs)
      | none =>
          if eng.afterDirty then (some (.dirtyAfter after), st', evs)
          else if after < before then
            (none, { st' with history := recordHistory st'.history "down" after },
             evs ++ [MEvent.addRollback (before - after),
                     MEvent.insertHistory "down" after ""])
          else (none, st', evs)

/-- `Manager.Down`. -/
def Down (st : MgrState) (maxRetries : Int) (eng : EngineModel) :
    Option MgrErr × MgrState × List MEvent :=
  let before := st.version
  if st.dirty then (some (.dirtyBefore before), st, [])
  else if anyCommitted st.history then (some (.committedVersion before), st, [])
  else downExec st maxRetries eng

/-- The execution phase of `Steps` (after the checks and optional down-file
validation). -/
def stepsExec (st : MgrState) (maxRetries : Int) (eng : EngineModel)
    (evs0 : List MEvent) : Option MgrErr × MgrState × List MEvent :=
  let before := st.version
  match withRetry maxRetries eng.attempts with
  | (rErr, _n, rEvs) =>
      let evs := evs0 ++ rEvs ++ [MEvent.observeDuration]
      let after := eng.afterVersion
      let st' := { st with version := after, dirty := eng.afterDirty }
      match rErr with
      | some e => (some (.engineFailed e), st', evs)
      | none =>
          if eng.afterDirty then (some (.dirtyAfter after), st', evs)
          else if before < after then
            (none, { st' with history := recordHistory st'.history "up" after },
             evs ++ [MEvent.addApplied (after - before),
                     MEvent.insertHistory "up" after ""])
          else if after < before then
            (none,
             { st' with history := recordHistory st'.history "rollback" after },
             evs ++ [MEvent.addRollback (before - after),
                     MEvent.insertHistory "rollback" after ""])
          else (none, st', evs)

/-- `Manager.Steps`. -/
def Steps (st : MgrState) (n : Int) (maxRetries : Int)
    (validateOK : String → Bool) (eng : EngineModel) :
    Option MgrErr × MgrState × List MEvent :=
  let before := st.version
  if st.dirty then (some (.dirtyBefore before), st, [])
  else if n < 0 ∧ versionCommitted st.history before then
    (some (.committedVersion before), st, [])
  else
    match (if n < 0 then (pendingDownFiles st before).head? else none) with
    | some f =>
        if validateOK f.content then
          stepsExec st maxRetries eng [MEvent.validateFile f.base]
        else (some (.invalidSQL f.base), st, [MEvent.validateFile f.base])
    | none => stepsExec st maxRetries eng []

/-- Go `uint(t)` on a 64-bit build: reduction mod `2^64`. -/
def goUint (t : Int) : Nat := (t % (2 : Int) ^ 64).toNat

/-- Go `cur - 1` on `uint`: wraps at zero. -/
def uintSub1 (cur : Nat) : Nat := (cur + 2 ^ 64 - 1) % 2 ^ 64

/-- `Manager.SafeForce`.  The engine's `Force(target)` is an external
golang-migrate call; modelled from the spec: it sets the schema version to
`target` and clears the dirty flag. -/
def SafeForce (st : MgrState) (target : Int) :
    Option MgrErr × MgrState × List MEvent :=
  let cur := st.version
  let t := goUint target
  if versionCommitted st.history t then (some (.committedVersion t), st, [])
  else if lastFileVersion st < t then
    (some (.exceedsLast target (lastFileVersion st)), st, [])
  else if ¬ st.dirty then (some (.notDirty cur), st, [])
  else if ¬ t = uintSub1 cur then (some (.forceWindow cur target), st, [])
  else
    (none,
     { st with version := t, dirty := false,
               history := recordHistory st.history "safe-force" t },
     [MEvent.engineForce t, MEvent.insertHistory "safe-force" t ""])

/-! ### Auxiliary observers and concrete fixtures -/

/-- Characters that are inert for the splitter's normal mode: not a quote,
comment starter, dollar sign or statement terminator. -/
def plainChar (c : Char) : Bool :=
  ¬ (c = '-' ∨ c = '/' ∨ c = squoteChar ∨ c = '"' ∨ c = '$' ∨ c = ';')

/-- The sleep durations occurring in an event trace, in order. -/
def sleepsOf (evs : List MEvent) : List Nat :=
  evs.filterMap (fun e => match e with | .sleep n => some n | _ => none)

/-- Number of engine invocations recorded in an event trace. -/
def countEngine (evs : List MEvent) : Nat :=
  evs.countP (fun e => match e with | .engineCall _ => true | _ => false)

/-- Number of duration-histogram observations in an event trace. -/
def countObs (evs : List MEvent) : Nat := evs.count MEvent.observeDuration

/-- Is the result a hash-mismatch error? -/
def isHashMismatch : Option MgrErr → Bool
  | some (.hashMismatch _ _ _) => true
  | _ => false

/-- A trivially succeeding validation oracle. -/
def vTrue : String → Bool := fun _ => true

/-- A benign engine oracle (every attempt succeeds, post state clean at 0). -/
def engW : EngineModel := ⟨fun _ => Att.ok, 0, false⟩

/-- Five migration files, versions 1..5. -/
def files5 : List MigFile :=
  [⟨"000001_a.up.sql", 1, "h1", "c1"⟩, ⟨"000002_b.up.sql", 2, "h2", "c2"⟩,
   ⟨"000003_c.up.sql", 3, "h3", "c3"⟩, ⟨"000004_d.up.sql", 4, "h4", "c4"⟩,
   ⟨"000005_e.up.sql", 5, "h5", "c5"⟩]

/-- Dirty database at version 5 with files 1..5 on disk (C2's scenario). -/
def stDirty5 : MgrState := ⟨5, true, [], files5, []⟩

/-- Version 1 was applied and committed with hash `aaa`; the on-disk file
now hashes to `bbb`; DB at version 0 (C3's scenario: the committed check
fires before the hash check). -/
def stC3 : MgrState :=
  ⟨0, false, [⟨"up", 1, true, "aaa"⟩], [⟨"000001_init.up.sql", 1, "bbb", "c"⟩], []⟩

/-- Like `stC3` but a later uncommitted row makes version 1 pass the
committed check, so the strict-hash comparison is reached. -/
def stC3b : MgrState :=
  ⟨0, false, [⟨"up", 1, true, "aaa"⟩, ⟨"down", 1, false, ""⟩],
   [⟨"000001_init.up.sql", 1, "bbb", "c"⟩], []⟩

/-- Clean database whose history contains a committed row (C4's scenario). -/
def stC4 : MgrState := ⟨1, false, [⟨"up", 1, true, ""⟩], [], []⟩

/-- Clean database at version 0 with one pending file (C10's scenario). -/
def stClean1 : MgrState := ⟨0, false, [], [⟨"000001_a.up.sql", 1, "h1", "c1"⟩], []⟩

/-- Retry oracle for the C6 witness: attempts 0 and 1 fail, attempt 2
succeeds. -/
def attW : Nat → Att := fun k => if k < 2 then .fail "boom" else .ok

/-- Error-message oracle for the C6 witness. -/
def errW : Nat → String := fun _ => "boom"

/-- Always-failing retry oracle. -/
def attFail : Nat → Att := fun _ => .fail "boom"

/-- A trivial dialect over a unit database state, for closed instances. -/
def dUnit : DialectM Unit :=
  ⟨fun _ => .ok [], fun _ => .ok [], fun _ => "UNKNOWN",
   fun _ => true, fun _ => true, fun u _ => .ok u⟩

/-- Default validation options with no confirmation callback. -/
def optsW : ValidateOptions := ⟨true, none, 0⟩

/-! ## Theorems -/

lemma retryLoop_count_le (att : Nat → Att) :
    ∀ fuel k last, (retryLoop att fuel k last).2.1 ≤ fuel := by
  intro fuel
  induction fuel with
  | zero => intro k last; simp [retryLoop]
  | succ f ih =>
      intro k last
      simp only [retryLoop]
      cases att k with
      | ok => simp
      | noChange => simp
      | fail e =>
          have h := ih (k + 1) (some e)
          rcases h2 : retryLoop att f (k + 1) (some e) with ⟨res, n, evs⟩
          rw [h2] at h
          simp only [h2]
          simp at h ⊢
          omega

lemma retryLoop_success (att : Nat → Att) :
    ∀ d fuel k last, d < fuel →
      (∀ j, j < d → ∃ er, att (k + j) = .fail er) →
      (att (k + d) = .ok ∨ att (k + d) = .noChange) →
      (retryLoop att fuel k last).1 = none ∧
        (retryLoop att fuel k last).2.1 = d + 1 := by
  intro d
  induction d with
  | zero =>
      intro fuel k last hf _ hok
      obtain ⟨f, rfl⟩ : ∃ f, fuel = f + 1 := ⟨fuel - 1, by omega⟩
      simp only [retryLoop]
      rcases hok with h | h <;> rw [show k + 0 = k from rfl] at h <;> rw [h] <;> simp
  | succ d ih =>
      intro fuel k last hf hfail hok
      obtain ⟨f, rfl⟩ : ∃ f, fuel = f + 1 := ⟨fuel - 1, by omega⟩
      obtain ⟨er, her⟩ := hfail 0 (by omega)
      rw [show k + 0 = k from rfl] at her
      simp only [retryLoop, her]
      have ih' := ih f (k + 1) (some er) (by omega)
        (fun j hj => by
          have h := hfail (j + 1) (by omega)
          rwa [show k + (j + 1) = k + 1 + j by omega] at h)
        (by rwa [show k + 1 + d = k + (d + 1) by omega])
      rcases h2 : retryLoop att f (k + 1) (some er) with ⟨res, n, evs⟩
      rw [h2] at ih'
      simpa using ih'

lemma retryLoop_sleeps_pos (att : Nat → Att) :
    ∀ fuel k last, 1 ≤ k →
      sleepsOf (retryLoop att fuel k last).2.2 =
        List.range' k (retryLoop att fuel k last).2.1 := by
  intro fuel
  induction fuel with
  | zero => intro k last _; simp [retryLoop, sleepsOf]
  | succ f ih =>
      intro k last hk
      have hkpos : 0 < k := hk
      simp only [retryLoop, hkpos, if_pos]
      cases att k with
      | ok => simp [sleepsOf, List.range']
      | noChange => simp [sleepsOf, List.range']
      | fail e =>
          have h := ih (k + 1) (some e) (by omega)
          rcases h2 : retryLoop att f (k + 1) (some e) with ⟨res, n, evs⟩
          rw [h2] at h
          simp only [h2]
          simp [sleepsOf] at h ⊢
          rw [h, List.range'_succ]

lemma retryLoop_sleeps_zero (att : Nat → Att) (fuel : Nat) (last : Option String) :
    sleepsOf (retryLoop att fuel 0 last).2.2 =
      List.range' 1 ((retryLoop att fuel 0 last).2.1 - 1) := by
  cases fuel with
  | zero => simp [retryLoop, sleepsOf]
  | succ f =>
      simp only [retryLoop]
      cases att 0 with
      | ok => simp [sleepsOf]
      | noChange => simp [sleepsOf]
      | fail e =>
          have h := retryLoop_sleeps_pos att f 1 (some e) (le_refl 1)
          rcases h2 : retryLoop att f 1 (some e) with ⟨res, n, evs⟩
          rw [h2] at h
          simp only [h2]
          simp [sleepsOf] at h ⊢
          exact h

lemma retryLoop_exhaust (att : Nat → Att) (e : Nat → String) :
    ∀ fuel k last, 1 ≤ fuel →
      (∀ j, j < fuel → att (k + j) = .fail (e (k + j))) →
      (retryLoop att fuel k last).1 = some (e (k + fuel - 1)) := by
  intro fuel
  induction fuel with
  | zero => intro k last h; omega
  | succ f ih =>
      intro k last _ hfail
      have h0 := hfail 0 (by omega)
      rw [show k + 0 = k from rfl] at h0
      simp only [retryLoop, h0]
      cases f with
      | zero => simp [retryLoop]
      | succ f' =>
          have h := ih (k + 1) (some (e k)) (by omega)
            (fun j hj => by
              have hh := hfail (j + 1) (by omega)
              rwa [show k + (j + 1) = k + 1 + j by omega] at hh)
          rcases h2 : retryLoop att (f' + 1) (k + 1) (some (e k)) with ⟨res, n, evs⟩
          rw [h2] at h
          simp only [h2]
          simp at h ⊢
          rw [h]
          congr 2
          omega

/-- C6: `withRetry` invokes the wrapped operation at most `maxRetries + 1`
times; it sleeps `k` time units before retry attempt `k` (so the sleep
schedule is `[1, ..., invocations-1]`); it returns nil as soon as an attempt
returns nil or `ErrNoChange`; and when every attempt fails it returns the
last attempt's error. -/
theorem withRetry_spec (m : Int) (att : Nat → Att) (e : Nat → String) :
    (withRetry m att).2.1 ≤ (m + 1).toNat
    ∧ sleepsOf (withRetry m att).2.2 =
        List.range' 1 ((withRetry m att).2.1 - 1)
    ∧ (∀ d : Nat, (d : Int) ≤ m →
        (∀ j, j < d → ∃ er, att j = .fail er) →
        (att d = .ok ∨ att d = .noChange) →
        (withRetry m att).1 = none ∧ (withRetry m att).2.1 = d + 1)
    ∧ (0 ≤ m → (∀ j : Nat, (j : Int) ≤ m → att j = .fail (e j)) →
        (withRetry m att).1 = some (e m.toNat)) := by
  refine ⟨retryLoop_count_le att _ 0 none, retryLoop_sleeps_zero att _ none, ?_, ?_⟩
  · intro d hd hfail hok
    have hf : d < (m + 1).toNat := by omega
    exact retryLoop_success att d ((m + 1).toNat) 0 none hf
      (by simpa using hfail) (by simpa using hok)
  · intro hm hfail
    have h := retryLoop_exhaust att e ((m + 1).toNat) 0 none (by omega)
      (fun j hj => by
        have hji : (j : Int) ≤ m := by omega
        simpa using hfail j hji)
    rw [show 0 + (m + 1).toNat - 1 = m.toNat by omega] at h
    exact h

/-- Witness for C6: with `maxRetries = 5`, attempts 0 and 1 failing and
attempt 2 succeeding, `withRetry` returns nil after exactly 3 invocations
with sleep schedule `[1, 2]`; with `maxRetries = 1` and every attempt
failing, it returns the last error. -/
theorem withRetry_spec_witness :
    ((2 : Int) ≤ 5 ∧ attW 2 = .ok)
    ∧ (withRetry 5 attW).1 = none ∧ (withRetry 5 attW).2.1 = 3
    ∧ sleepsOf (withRetry 5 attW).2.2 = [1, 2]
    ∧ (withRetry 1 attFail).1 = some "boom" := by
  have h := (withRetry_spec 5 attW errW).2.2.1 2 (by norm_num)
    (fun j hj => ⟨"boom", by simp [attW, hj]⟩) (Or.inl (by simp [attW]))
  have hs := (withRetry_spec 5 attW errW).2.1
  have hx := (withRetry_spec 1 attFail errW).2.2.2 (by norm_num)
    (fun j _ => by simp [attFail, errW])
  refine ⟨⟨by norm_num, by simp [attW]⟩, h.1, h.2, ?_, by simpa [errW] using hx⟩
  rw [hs, h.2]
  rfl

lemma upValidate_events (vOK : String → Bool) :
    ∀ fs, countEngine (upValidate vOK fs).1 = 0 ∧ countObs (upValidate vOK fs).1 = 0 := by
  intro fs
  induction fs with
  | nil => simp [upValidate, countEngine, countObs]
  | cons f fs ih =>
      by_cases h : vOK f.content
      · rcases h2 : upValidate vOK fs with ⟨evs, res⟩
        rw [h2] at ih
        simp [upValidate, h, h2, countEngine, countObs] at ih ⊢
        exact ih
      · simp [upValidate, h, countEngine, countObs]

/-- C10: a negative `maxRetries` makes `withRetry` report success without a
single invocation of the wrapped operation, and `Up` then proceeds past the
apply stage as a success while the underlying engine is never called. -/
theorem withRetry_negative (m : Int) (att : Nat → Att) (st : MgrState)
    (sh : Bool) (vOK : String → Bool) (eng : EngineModel) :
    (m < 0 → withRetry m att = (none, 0, []))
    ∧ (m < 0 → st.dirty = false →
        ¬ pendingUpFiles st st.version = [] →
        upCheckVersions st st.version (pendingUpFiles st st.version) = none →
        (if sh then upCheckHash st (pendingUpFiles st st.version) else none) = none →
        (upValidate vOK (pendingUpFiles st st.version)).2 = none →
        eng.afterVersion = st.version → eng.afterDirty = false →
        (Up st m sh vOK eng).1 = none ∧
          countEngine (Up st m sh vOK eng).2.2 = 0) := by
  have hneg : ∀ h : m < 0, withRetry m att = (none, 0, []) := by
    intro h
    have : (m + 1).toNat = 0 := by omega
    simp [withRetry, this, retryLoop]
  refine ⟨hneg, ?_⟩
  intro hm hd hne hcv hch hval hav had
  have hempty : (pendingUpFiles st st.version).isEmpty = false := by
    simpa [List.isEmpty_iff] using hne
  rcases hv : upValidate vOK (pendingUpFiles st st.version) with ⟨vEvs, vRes⟩
  have hvr : vRes = none := by rw [hv] at hval; exact hval
  subst hvr
  have hwr : withRetry m eng.attempts = (none, 0, []) := by
    have : (m + 1).toNat = 0 := by omega
    simp [withRetry, this, retryLoop]
  have hvev := upValidate_events vOK (pendingUpFiles st st.version)
  rw [hv] at hvev
  simp only [Up, hd, Bool.false_eq_true, if_false, hempty, hcv, hch, hv, upExec,
    hwr, hav, had]
  constructor
  · simp
  · simp [countEngine, List.countP_append]
    simpa [countEngine] using hvev.1

/-- Witness for C10: with `maxRetries = -5` on a clean database with one
pending file, `Up` returns success and the engine is never invoked. -/
theorem withRetry_negative_witness :
    ((-5 : Int) < 0 ∧ stClean1.dirty = false)
    ∧ withRetry (-5) attFail = (none, 0, [])
    ∧ (Up stClean1 (-5) false vTrue ⟨attFail, 0, false⟩).1 = none
    ∧ countEngine (Up stClean1 (-5) false vTrue ⟨attFail, 0, false⟩).2.2 = 0 := by
  have h := withRetry_negative (-5) attFail stClean1 false vTrue ⟨attFail, 0, false⟩
  have h2 := h.2 (by norm_num) rfl (by decide) (by decide) (by decide) (by decide)
    rfl rfl
  exact ⟨⟨by norm_num, rfl⟩, h.1 (by norm_num), h2.1, h2.2⟩

/-- C2: `SafeForce(target)` succeeds exactly when the target is uncommitted,
within the on-disk file range, the database is dirty, and the target is the
current version minus one (in Go `uint` arithmetic); on success it clears
the dirty flag at the target and appends a safe-force history row; when any
precondition fails it returns an error and performs no mutation. -/
theorem safeForce_spec (st : MgrState) (target : Int) :
    (versionCommitted st.history (goUint target) = false →
     goUint target ≤ lastFileVersion st →
     st.dirty = true →
     goUint target = uintSub1 st.version →
     SafeForce st target =
       (none,
        { st with version := goUint target, dirty := false,
                  history := recordHistory st.history "safe-force" (goUint target) },
        [MEvent.engineForce (goUint target),
         MEvent.insertHistory "safe-force" (goUint target) ""]))
    ∧ (¬ (versionCommitted st.history (goUint target) = false ∧
           goUint target ≤ lastFileVersion st ∧
           st.dirty = true ∧
           goUint target = uintSub1 st.version) →
        ∃ e, SafeForce st target = (some e, st, [])) := by
  constructor
  · intro h1 h2 h3 h4
    unfold SafeForce
    rw [if_neg (by simp [h1]), if_neg (by omega), if_neg (by simp [h3]),
      if_neg (by simp [h4])]
  · intro h
    by_cases h1 : versionCommitted st.history (goUint target) = true
    · exact ⟨.committedVersion (goUint target), by simp [SafeForce, h1]⟩
    · have h1' : versionCommitted st.history (goUint target) = false := by
        simpa using h1
      by_cases h2 : lastFileVersion st < goUint target
      · exact ⟨.exceedsLast target (lastFileVersion st), by simp [SafeForce, h1', h2]⟩
      · by_cases h3 : st.dirty
        · by_cases h4 : goUint target = uintSub1 st.version
          · exact absurd ⟨h1', by omega, h3, h4⟩ h
          · exact ⟨.forceWindow st.version target,
              by simp [SafeForce, h1', h2, h3, h4]⟩
        · exact ⟨.notDirty st.version, by simp [SafeForce, h1', h2, h3]⟩

/-- Witness for C2: dirty at version 5, `SafeForce 4` succeeds (dirty
cleared at 4, safe-force row recorded) and `SafeForce 3` fails with no
mutation. -/
theorem safeForce_spec_witness :
    SafeForce stDirty5 4 =
      (none,
       { stDirty5 with version := goUint 4, dirty := false,
                       history := recordHistory stDirty5.history "safe-force" (goUint 4) },
       [MEvent.engineForce (goUint 4),
        MEvent.insertHistory "safe-force" (goUint 4) ""])
    ∧ goUint 4 = 4
    ∧ (∃ e, SafeForce stDirty5 3 = (some e, stDirty5, [])) := by
  refine ⟨(safeForce_spec stDirty5 4).1 (by decide) (by decide) rfl (by decide),
    by decide, (safeForce_spec stDirty5 3).2 (by decide)⟩

/-- C4: `Down` refuses with no engine call and no state change whenever any
history row anywhere is committed, and a clean database with no committed
row passes this check into the execution phase. -/
theorem down_committed_blocks (st : MgrState) (mr : Int) (eng : EngineModel) :
    (anyCommitted st.history = true → ∃ e, Down st mr eng = (some e, st, []))
    ∧ (st.dirty = false → anyCommitted st.history = false →
        Down st mr eng = downExec st mr eng) := by
  constructor
  · intro h
    by_cases hd : st.dirty
    · exact ⟨.dirtyBefore st.version, by simp [Down, hd]⟩
    · exact ⟨.committedVersion st.version, by simp [Down, hd, h]⟩
  · intro hd h
    simp [Down, hd, h]

/-- Witness for C4: a clean database whose history has one committed row
makes `Down` fail without mutation. -/
theorem down_committed_blocks_witness :
    anyCommitted stC4.history = true
    ∧ (∃ e, Down stC4 0 engW = (some e, stC4, [])) :=
  ⟨by decide, (down_committed_blocks stC4 0 engW).1 (by decide)⟩

lemma upCheckHash_some (st : MgrState) :
    ∀ fs e, upCheckHash st fs = some e →
      ∃ v fh dh, e = .hashMismatch v fh dh ∧ ¬ dh = "" ∧ ¬ dh = fh ∧
        ∃ f ∈ fs, f.version = v ∧ f.hash = fh ∧
          latestCommittedUpSha st.history v = some dh := by
  intro fs
  induction fs with
  | nil => intro e h; simp [upCheckHash] at h
  | cons f fs ih =>
      intro e h
      simp only [upCheckHash] at h
      cases hq : latestCommittedUpSha st.history f.version with
      | none =>
          rw [hq] at h
          obtain ⟨v, fh, dh, he, h1, h2, g, hg, hrest⟩ := ih e h
          exact ⟨v, fh, dh, he, h1, h2, g, List.mem_cons_of_mem f hg, hrest⟩
      | some dbh =>
          rw [hq] at h
          have h' : (if ¬ dbh = "" ∧ ¬ dbh = f.hash then
              some (MgrErr.hashMismatch f.version f.hash dbh)
            else upCheckHash st fs) = some e := h
          by_cases hc : ¬ dbh = "" ∧ ¬ dbh = f.hash
          · rw [if_pos hc] at h'
            have he : e = .hashMismatch f.version f.hash dbh := by
              injection h' with hh; exact hh.symm
            exact ⟨f.version, f.hash, dbh, he, hc.1, hc.2, f,
              List.mem_cons_self f fs, rfl, rfl, hq⟩
          · rw [if_neg hc] at h'
            obtain ⟨v, fh, dh, he, h1, h2, g, hg, hrest⟩ := ih e h'
            exact ⟨v, fh, dh, he, h1, h2, g, List.mem_cons_of_mem f hg, hrest⟩

/-- C3 counterexample: version 1 has a committed `up` row with recorded hash
`aaa` while the on-disk file hashes to `bbb` (the claim's antecedent), yet
`Up` in strict-hash mode fails with the *committed-version* error from step
1, not a hash-mismatch error. -/
theorem up_strictHash_counterexample :
    latestCommittedUpSha stC3.history 1 = some "aaa"
    ∧ (stC3.files.map (fun f => (f.version, f.hash))) = [(1, "bbb")]
    ∧ (Up stC3 0 true vTrue engW).1 = some (.committedVersion 1)
    ∧ isHashMismatch (Up stC3 0 true vTrue engW).1 = false := by
  refine ⟨by decide, by decide, ?_, ?_⟩ <;> decide

/-- C3 (amended): with strict-hash mode on and every pending candidate
passing the version/committed checks, `Up` fails before any validation or
engine call exactly with the error produced by the hash scan, which is a
hash-mismatch for a candidate whose newest committed `up` row records a
non-empty hash differing from the file's current hash; candidates with no
committed `up` row are never hash-checked. -/
theorem up_strictHash_amended (st : MgrState) (mr : Int)
    (vOK : String → Bool) (eng : EngineModel) :
    (st.dirty = false →
     ¬ pendingUpFiles st st.version = [] →
     upCheckVersions st st.version (pendingUpFiles st st.version) = none →
     ∀ e, upCheckHash st (pendingUpFiles st st.version) = some e →
       Up st mr true vOK eng = (some e, st, [])
       ∧ ∃ v fh dh, e = .hashMismatch v fh dh ∧ ¬ dh = "" ∧ ¬ dh = fh ∧
           ∃ f ∈ pendingUpFiles st st.version, f.version = v ∧ f.hash = fh ∧
             latestCommittedUpSha st.history v = some dh)
    ∧ (∀ fs : List MigFile,
        (∀ f ∈ fs, latestCommittedUpSha st.history f.version = none) →
        upCheckHash st fs = none) := by
  constructor
  · intro hd hne hcv e hch
    have hempty : (pendingUpFiles st st.version).isEmpty = false := by
      simpa [List.isEmpty_iff] using hne
    refine ⟨?_, upCheckHash_some st _ e hch⟩
    simp [Up, hd, hempty, hcv, hch]
  · intro fs hnone
    induction fs with
    | nil => simp [upCheckHash]
    | cons f fs ih =>
        have h0 := hnone f (List.mem_cons_self f fs)
        simp only [upCheckHash, h0]
        exact ih (fun g hg => hnone g (List.mem_cons_of_mem f hg))

/-- Witness for C3 (amended): version 1's newest history row is uncommitted
(so step 1 passes) while an older committed `up` row records hash `aaa`;
the file hashes to `bbb`, and `Up` fails with exactly the hash-mismatch
error, touching nothing. -/
theorem up_strictHash_amended_witness :
    (stC3b.dirty = false
      ∧ ¬ pendingUpFiles stC3b 0 = []
      ∧ upCheckVersions stC3b 0 (pendingUpFiles stC3b 0) = none
      ∧ upCheckHash stC3b (pendingUpFiles stC3b 0)
          = some (.hashMismatch 1 "bbb" "aaa"))
    ∧ Up stC3b 0 true vTrue engW
        = (some (.hashMismatch 1 "bbb" "aaa"), stC3b, []) := by
  refine ⟨⟨rfl, by decide, by decide, by decide⟩, ?_⟩
  exact ((up_strictHash_amended stC3b 0 vTrue engW).1 rfl (by decide) (by decide)
    (.hashMismatch 1 "bbb" "aaa") (by decide)).1

lemma retryLoop_no_obs (att : Nat → Att) :
    ∀ fuel k last, countObs (retryLoop att fuel k last).2.2 = 0 := by
  intro fuel
  induction fuel with
  | zero => intro k last; simp [retryLoop, countObs]
  | succ f ih =>
      intro k last
      simp only [retryLoop]
      cases att k with
      | ok => by_cases hk : 0 < k <;> simp [hk, countObs]
      | noChange => by_cases hk : 0 < k <;> simp [hk, countObs]
      | fail e =>
          rcases h2 : retryLoop att f (k + 1) (some e) with ⟨res, n, evs⟩
          have h := ih (k + 1) (some e)
          rw [h2] at h
          simp only [h2]
          by_cases hk : 0 < k <;>
            simp [hk, countObs, List.count_append] <;>
            simpa [countObs] using h

lemma withRetry_no_obs (mr : Int) (att : Nat → Att) :
    countObs (withRetry mr att).2.2 = 0 :=
  retryLoop_no_obs att ((mr + 1).toNat) 0 none

lemma upRecordHistory_no_obs (before after : Nat) :
    ∀ (files : List MigFile) (h : List HistoryRow),
      countObs (upRecordHistory before after files h).2 = 0 := by
  intro files
  induction files with
  | nil => intro h; simp [upRecordHistory, countObs]
  | cons f fs ih =>
      intro h
      simp only [upRecordHistory]
      by_cases hc : before < f.version ∧ f.version ≤ after
      · rw [if_pos hc]
        rcases h2 : upRecordHistory before after fs
            (h ++ [⟨"up", f.version, false, f.hash⟩]) with ⟨h', evs⟩
        have hh := ih (h ++ [⟨"up", f.version, false, f.hash⟩])
        rw [h2] at hh
        simp only [h2]
        simpa [countObs] using hh
      · rw [if_neg hc]
        exact ih h

lemma upExec_obs (st : MgrState) (mr : Int) (eng : EngineModel)
    (files : List MigFile) (vEvs : List MEvent) (hv : countObs vEvs = 0) :
    countObs (upExec st mr eng files vEvs).2.2 = 1 := by
  simp only [upExec]
  rcases hw : withRetry mr eng.attempts with ⟨rErr, cnt, rEvs⟩
  have hr : countObs rEvs = 0 := by
    have h := withRetry_no_obs mr eng.attempts
    rw [hw] at h
    exact h
  have hh := upRecordHistory_no_obs st.version eng.afterVersion files st.history
  cases rErr with
  | some e =>
      simp [countObs, List.count_append] at hv hr ⊢
      simp [hv, hr]
  | none =>
      by_cases hlt : st.version < eng.afterVersion
      · rcases h2 : upRecordHistory st.version eng.afterVersion files st.history
            with ⟨h', hEvs⟩
        rw [h2] at hh
        by_cases hd : eng.afterDirty <;>
          simp [hlt, h2, hd, countObs, List.count_append] at hv hr hh ⊢ <;>
          simp [hv, hr, hh]
      · by_cases hd : eng.afterDirty <;>
          simp [hlt, hd, countObs, List.count_append] at hv hr ⊢ <;>
          simp [hv, hr]

lemma downExec_obs (st : MgrState) (mr : Int) (eng : EngineModel) :
    countObs (downExec st mr eng).2.2 = 1 := by
  simp only [downExec]
  rcases hw : withRetry mr eng.attempts with ⟨rErr, cnt, rEvs⟩
  have hr : countObs rEvs = 0 := by
    have h := withRetry_no_obs mr eng.attempts
    rw [hw] at h
    exact h
  cases rErr with
  | some e =>
      simp [countObs, List.count_append] at hr ⊢
      simp [hr]
  | none =>
      by_cases hd : eng.afterDirty
      · simp [hd, countObs, List.count_append] at hr ⊢
        simp [hr]
      · by_cases hlt : eng.afterVersion < st.version <;>
          simp [hd, hlt, countObs, List.count_append] at hr ⊢ <;>
          simp [hr]

lemma stepsExec_obs (st : MgrState) (mr : Int) (eng : EngineModel)
    (evs0 : List MEvent) (h0 : countObs evs0 = 0) :
    countObs (stepsExec st mr eng evs0).2.2 = 1 := by
  simp only [stepsExec]
  rcases hw : withRetry mr eng.attempts with ⟨rErr, cnt, rEvs⟩
  have hr : countObs rEvs = 0 := by
    have h := withRetry_no_obs mr eng.attempts
    rw [hw] at h
    exact h
  cases rErr with
  | some e =>
      simp [countObs, List.count_append] at h0 hr ⊢
      simp [h0, hr]
  | none =>
      by_cases hd : eng.afterDirty
      · simp [hd, countObs, List.count_append] at h0 hr ⊢
        simp [h0, hr]
      · by_cases h1 : st.version < eng.afterVersion
        · simp [hd, h1, countObs, List.count_append] at h0 hr ⊢
          simp [h0, hr]
        · by_cases h2 : eng.afterVersion < st.version <;>
            simp [hd, h1, h2, countObs, List.count_append] at h0 hr ⊢ <;>
            simp [h0, hr]

/-- C9 counterexample: `Up` on a dirty database fails its precondition and
records nothing into the duration histogram, contradicting the claim that
every invocation records its duration regardless of outcome. -/
theorem duration_counterexample :
    stDirty5.dirty = true
    ∧ (Up stDirty5 0 false vTrue engW).1 = some (.dirtyBefore 5)
    ∧ countObs (Up stDirty5 0 false vTrue engW).2.2 = 0 := by
  refine ⟨rfl, ?_, ?_⟩ <;> decide

/-- C9 (amended): `Up`, `Down` and `Steps` record exactly one duration
observation when they reach the engine-execution phase (all preconditions,
checks and validations passed), regardless of the engine outcome; an
invocation that fails the dirty check, the version/committed checks, the
hash check, or validation, or that finds no pending work, records no
duration observation. -/
theorem duration_histogram_amended (st : MgrState) (n mr : Int) (sh : Bool)
    (vOK : String → Bool) (eng : EngineModel) :
    (st.dirty = true →
      countObs (Up st mr sh vOK eng).2.2 = 0
      ∧ countObs (Down st mr eng).2.2 = 0
      ∧ countObs (Steps st n mr vOK eng).2.2 = 0)
    ∧ (st.dirty = false → pendingUpFiles st st.version = [] →
        countObs (Up st mr sh vOK eng).2.2 = 0)
    ∧ (st.dirty = false → ¬ pendingUpFiles st st.version = [] → ∀ e,
        upCheckVersions st st.version (pendingUpFiles st st.version) = some e →
        countObs (Up st mr sh vOK eng).2.2 = 0)
    ∧ (st.dirty = false → ¬ pendingUpFiles st st.version = [] →
        upCheckVersions st st.version (pendingUpFiles st st.version) = none →
        ∀ e, (if sh then upCheckHash st (pendingUpFiles st st.version)
              else none) = some e →
        countObs (Up st mr sh vOK eng).2.2 = 0)
    ∧ (st.dirty = false → ¬ pendingUpFiles st st.version = [] →
        upCheckVersions st st.version (pendingUpFiles st st.version) = none →
        (if sh then upCheckHash st (pendingUpFiles st st.version)
         else none) = none →
        ∀ e, (upValidate vOK (pendingUpFiles st st.version)).2 = some e →
        countObs (Up st mr sh vOK eng).2.2 = 0)
    ∧ (st.dirty = false → ¬ pendingUpFiles st st.version = [] →
        upCheckVersions st st.version (pendingUpFiles st st.version) = none →
        (if sh then upCheckHash st (pendingUpFiles st st.version)
         else none) = none →
        (upValidate vOK (pendingUpFiles st st.version)).2 = none →
        countObs (Up st mr sh vOK eng).2.2 = 1)
    ∧ (st.dirty = false → anyCommitted st.history = true →
        countObs (Down st mr eng).2.2 = 0)
    ∧ (st.dirty = false → anyCommitted st.history = false →
        countObs (Down st mr eng).2.2 = 1)
    ∧ (st.dirty = false → n < 0 → versionCommitted st.history st.version = true →
        countObs (Steps st n mr vOK eng).2.2 = 0)
    ∧ (st.dirty = false →
        ¬ (n < 0 ∧ versionCommitted st.history st.version = true) →
        ∀ f, (if n < 0 then (pendingDownFiles st st.version).head?
              else none) = some f →
        vOK f.content = false →
        countObs (Steps st n mr vOK eng).2.2 = 0)
    ∧ (st.dirty = false →
        ¬ (n < 0 ∧ versionCommitted st.history st.version = true) →
        (∀ f, (if n < 0 then (pendingDownFiles st st.version).head?
               else none) = some f → vOK f.content = true) →
        countObs (Steps st n mr vOK eng).2.2 = 1) := by
  have hval := upValidate_events vOK (pendingUpFiles st st.version)
  refine ⟨?_, ?_, ?_, ?_, ?_, ?_, ?_, ?_, ?_, ?_, ?_⟩
  · intro hd
    exact ⟨by simp [Up, hd, countObs], by simp [Down, hd, countObs],
      by simp [Steps, hd, countObs]⟩
  · intro hd hpe
    simp [Up, hd, hpe, countObs]
  · intro hd hne e hcv
    have hempty : (pendingUpFiles st st.version).isEmpty = false := by
      simpa [List.isEmpty_iff] using hne
    simp [Up, hd, hempty, hcv, countObs]
  · intro hd hne hcv e hch
    have hempty : (pendingUpFiles st st.version).isEmpty = false := by
      simpa [List.isEmpty_iff] using hne
    simp [Up, hd, hempty, hcv, hch, countObs]
  · intro hd hne hcv hch e hv
    have hempty : (pendingUpFiles st st.version).isEmpty = false := by
      simpa [List.isEmpty_iff] using hne
    rcases h2 : upValidate vOK (pendingUpFiles st st.version) with ⟨vEvs, vRes⟩
    rw [h2] at hv
    simp only at hv
    subst hv
    rw [h2] at hval
    simp only [Up, hd, Bool.false_eq_true, if_false, hempty, hcv, hch, h2]
    exact hval.2
  · intro hd hne hcv hch hv
    have hempty : (pendingUpFiles st st.version).isEmpty = false := by
      simpa [List.isEmpty_iff] using hne
    rcases h2 : upValidate vOK (pendingUpFiles st st.version) with ⟨vEvs, vRes⟩
    rw [h2] at hv
    simp only at hv
    subst hv
    rw [h2] at hval
    simp only [Up, hd, Bool.false_eq_true, if_false, hempty, hcv, hch, h2]
    exact upExec_obs st mr eng _ vEvs hval.2
  · intro hd hc
    simp [Down, hd, hc, countObs]
  · intro hd hc
    simp only [Down, hd, Bool.false_eq_true, if_false, hc]
    exact downExec_obs st mr eng
  · intro hd hn hc
    simp [Steps, hd, hn, hc, countObs]
  · intro hd hcc f hf hbad
    simp only [Steps, hd, Bool.false_eq_true, if_false, if_neg hcc, hf]
    show countObs
        (if vOK f.content = true then
          stepsExec st mr eng [MEvent.validateFile f.base]
        else (some (MgrErr.invalidSQL f.base), st,
          [MEvent.validateFile f.base])).2.2 = 0
    rw [hbad]
    simp [countObs]
  · intro hd hcc hok
    simp only [Steps, hd, Bool.false_eq_true, if_false, if_neg hcc]
    cases hf : (if n < 0 then (pendingDownFiles st st.version).head?
        else none) with
    | none => exact stepsExec_obs st mr eng [] (by simp [countObs])
    | some f =>
        show countObs
            (if vOK f.content = true then
              stepsExec st mr eng [MEvent.validateFile f.base]
            else (some (MgrErr.invalidSQL f.base), st,
              [MEvent.validateFile f.base])).2.2 = 1
        rw [hok f hf, if_pos rfl]
        exact stepsExec_obs st mr eng [MEvent.validateFile f.base]
          (by simp [countObs])

/-- Witness for C9 (amended): on a clean database with one pending valid
file, `Up` reaches the execution phase and records exactly one duration
observation. -/
theorem duration_histogram_amended_witness :
    (stClean1.dirty = false
      ∧ ¬ pendingUpFiles stClean1 0 = []
      ∧ upCheckVersions stClean1 0 (pendingUpFiles stClean1 0) = none
      ∧ (upValidate vTrue (pendingUpFiles stClean1 0)).2 = none)
    ∧ countObs (Up stClean1 0 false vTrue engW).2.2 = 1 := by
  refine ⟨⟨rfl, by decide, by decide, by decide⟩, ?_⟩
  exact (duration_histogram_amended stClean1 0 0 false vTrue engW).2.2.2.2.2.1
    rfl (by decide) (by decide) rfl (by decide)

lemma validateBlock_rollback {σ : Type} (d : DialectM σ) (opts : ValidateOptions)
    (db : σ) (blk : List String) :
    (validateBlock d opts db blk).2.1 = db
    ∧ (validateBlock d opts db blk).2.2 = [VEvent.txBegin, VEvent.txRollback] := by
  simp only [validateBlock]
  cases validateBlockLoop d opts db blk <;> simp [txRollbackFin]

lemma runBlocks_inv {σ : Type} (d : DialectM σ) (opts : ValidateOptions) :
    ∀ (bs : List (List String)) (db : σ),
      (runBlocks d opts db bs).2.1 = db
      ∧ VEvent.txCommit ∉ (runBlocks d opts db bs).2.2
      ∧ (runBlocks d opts db bs).2.2.count VEvent.txBegin
          = (runBlocks d opts db bs).2.2.count VEvent.txRollback := by
  intro bs
  induction bs with
  | nil => intro db; simp [runBlocks]
  | cons b bs ih =>
      intro db
      simp only [runBlocks]
      rcases h : validateBlock d opts db b with ⟨r, db', evs⟩
      have hb := validateBlock_rollback d opts db b
      rw [h] at hb
      simp only at hb
      obtain ⟨hdb, hevs⟩ := hb
      cases r with
      | some e => simp [hevs, hdb]
      | none =>
          rcases h2 : runBlocks d opts db' bs with ⟨res, db'', evs'⟩
          have hi := ih db'
          rw [h2] at hi
          simp only at hi
          simp only [h2]
          simp [hevs, hdb, hi.1, List.count_append, hi.2.2, hi.2.1]

/-- C1: every transaction opened during validation is rolled back and never
committed — at the level of a single `validateBlock` and across a whole
`ValidateSQL` call — so validation leaves the durable database state
unchanged for every input and outcome. -/
theorem validateSQL_never_mutates {σ : Type} (sqlText : String)
    (cfg : List (String × String)) (opts : ValidateOptions) (d : DialectM σ)
    (db : σ) :
    (ValidateSQL sqlText cfg opts d db).2.1 = db
    ∧ VEvent.txCommit ∉ (ValidateSQL sqlText cfg opts d db).2.2
    ∧ (ValidateSQL sqlText cfg opts d db).2.2.count VEvent.txBegin
        = (ValidateSQL sqlText cfg opts d db).2.2.count VEvent.txRollback
    ∧ (∀ blk, (validateBlock d opts db blk).2.1 = db
        ∧ (validateBlock d opts db blk).2.2
            = [VEvent.txBegin, VEvent.txRollback]) := by
  have main :
      (ValidateSQL sqlText cfg opts d db).2.1 = db
      ∧ VEvent.txCommit ∉ (ValidateSQL sqlText cfg opts d db).2.2
      ∧ (ValidateSQL sqlText cfg opts d db).2.2.count VEvent.txBegin
          = (ValidateSQL sqlText cfg opts d db).2.2.count VEvent.txRollback := by
    simp only [ValidateSQL]
    cases hdsn : cfg.lookup "dsn" with
    | none => simp
    | some dsn =>
        simp only
        by_cases hblank : dsn.trim = ""
        · rw [if_pos hblank]; simp
        · rw [if_neg hblank]
          by_cases hemp : sqlText.trim = ""
          · rw [if_pos hemp]; simp
          · rw [if_neg hemp]
            by_cases hsz : 100 * 1024 < sqlText.trim.utf8ByteSize
            · rw [if_pos hsz]; simp
            · rw [if_neg hsz]
              cases hsp : d.splitStatements sqlText.trim with
              | error e => simp
              | ok stmts =>
                  simp only
                  by_cases hz : stmts.length = 0
                  · rw [if_pos hz]; simp
                  · rw [if_neg hz]
                    by_cases hgt : 100 < stmts.length
                    · rw [if_pos hgt]; simp
                    · rw [if_neg hgt]
                      cases hpb : d.parseBlocks stmts with
                      | error e => simp
                      | ok blocks =>
                          rcases h2 : runBlocks d
                              (if opts.timeout = 0 then
                                { opts with timeout := 4000 } else opts)
                              db blocks with ⟨res, db', evs⟩
                          have hi := runBlocks_inv d
                            (if opts.timeout = 0 then
                              { opts with timeout := 4000 } else opts)
                            blocks db
                          rw [h2] at hi
                          simp only at hi
                          simp only [h2]
                          simp [hi.1, hi.2.1, List.count_cons, hi.2.2]
  exact ⟨main.1, main.2.1, main.2.2,
    fun blk => validateBlock_rollback d opts db blk⟩

/-- C5: `ValidateSQL` fails hard without opening any database connection
when the connection parameters lack a non-blank `dsn`, the SQL text trims to
empty, the trimmed text exceeds 100 KiB, or splitting yields zero or more
than 100 statements; the database-open event occurs only when every
precondition holds and block parsing succeeds. -/
theorem validateSQL_preconds {σ : Type} (sqlText : String)
    (cfg : List (String × String)) (opts : ValidateOptions) (d : DialectM σ)
    (db : σ) :
    (cfg.lookup "dsn" = none →
      ValidateSQL sqlText cfg opts d db
        = ((false, some (.precond "dbConfig missing dsn")), db, []))
    ∧ (∀ dsn, cfg.lookup "dsn" = some dsn → dsn.trim = "" →
        ValidateSQL sqlText cfg opts d db
          = ((false, some (.precond "dbConfig missing dsn")), db, []))
    ∧ (∀ dsn, cfg.lookup "dsn" = some dsn → ¬ dsn.trim = "" →
        sqlText.trim = "" →
        ValidateSQL sqlText cfg opts d db
          = ((false, some (.precond "empty SQL statement")), db, []))
    ∧ (∀ dsn, cfg.lookup "dsn" = some dsn → ¬ dsn.trim = "" →
        ¬ sqlText.trim = "" → 100 * 1024 < sqlText.trim.utf8ByteSize →
        ValidateSQL sqlText cfg opts d db
          = ((false, some (.precond "SQL input too large")), db, []))
    ∧ (∀ dsn, cfg.lookup "dsn" = some dsn → ¬ dsn.trim = "" →
        ¬ sqlText.trim = "" → sqlText.trim.utf8ByteSize ≤ 100 * 1024 →
        ∀ stmts, d.splitStatements sqlText.trim = .ok stmts →
        stmts.length = 0 →
        ValidateSQL sqlText cfg opts d db
          = ((false, some (.precond "no statements found")), db, []))
    ∧ (∀ dsn, cfg.lookup "dsn" = some dsn → ¬ dsn.trim = "" →
        ¬ sqlText.trim = "" → sqlText.trim.utf8ByteSize ≤ 100 * 1024 →
        ∀ stmts, d.splitStatements sqlText.trim = .ok stmts →
        100 < stmts.length →
        ValidateSQL sqlText cfg opts d db
          = ((false, some (.precond "too many statements")), db, []))
    ∧ (VEvent.openDB ∈ (ValidateSQL sqlText cfg opts d db).2.2 →
        ∃ dsn, cfg.lookup "dsn" = some dsn ∧ ¬ dsn.trim = ""
          ∧ ¬ sqlText.trim = "" ∧ sqlText.trim.utf8ByteSize ≤ 100 * 1024
          ∧ ∃ stmts, d.splitStatements sqlText.trim = .ok stmts
              ∧ 0 < stmts.length ∧ stmts.length ≤ 100
              ∧ ∃ blocks, d.parseBlocks stmts = .ok blocks) := by
  refine ⟨?_, ?_, ?_, ?_, ?_, ?_, ?_⟩
  · intro h; simp [ValidateSQL, h]
  · intro dsn h hblank; simp [ValidateSQL, h, hblank]
  · intro dsn h hblank hemp; simp [ValidateSQL, h, hblank, hemp]
  · intro dsn h hblank hemp hsz; simp [ValidateSQL, h, hblank, hemp, hsz]
  · intro dsn h hblank hemp hsz stmts hsp hz
    simp [ValidateSQL, h, hblank, hemp, Nat.not_lt.mpr hsz, hsp, hz]
  · intro dsn h hblank hemp hsz stmts hsp hgt
    have hz : ¬ stmts.length = 0 := by omega
    simp [ValidateSQL, h, hblank, hemp, Nat.not_lt.mpr hsz, hsp, hz, hgt]
  · intro hmem
    simp only [ValidateSQL] at hmem
    cases hdsn : cfg.lookup "dsn" with
    | none => rw [hdsn] at hmem; simp at hmem
    | some dsn =>
        rw [hdsn] at hmem
        simp only at hmem
        by_cases hblank : dsn.trim = ""
        · rw [if_pos hblank] at hmem; simp at hmem
        · rw [if_neg hblank] at hmem
          by_cases hemp : sqlText.trim = ""
          · rw [if_pos hemp] at hmem; simp at hmem
          · rw [if_neg hemp] at hmem
            by_cases hsz : 100 * 1024 < sqlText.trim.utf8ByteSize
            · rw [if_pos hsz] at hmem; simp at hmem
            · rw [if_neg hsz] at hmem
              cases hsp : d.splitStatements sqlText.trim with
              | error e => rw [hsp] at hmem; simp at hmem
              | ok stmts =>
                  rw [hsp] at hmem
                  simp only at hmem
                  by_cases hz : stmts.length = 0
                  · rw [if_pos hz] at hmem; simp at hmem
                  · rw [if_neg hz] at hmem
                    by_cases hgt : 100 < stmts.length
                    · rw [if_pos hgt] at hmem; simp at hmem
                    · rw [if_neg hgt] at hmem
                      cases hpb : d.parseBlocks stmts with
                      | error e => rw [hpb] at hmem; simp at hmem
                      | ok blocks =>
                          exact ⟨dsn, rfl, hblank, hemp, by omega, stmts,
                            rfl, by omega, by omega, blocks, hpb⟩

/-- Witness for C5: an empty parameter map has no `dsn`, so `ValidateSQL`
fails hard with no database-open event. -/
theorem validateSQL_preconds_witness :
    (([] : List (String × String)).lookup "dsn" = none)
    ∧ ValidateSQL "SELECT 1;" [] optsW dUnit ()
        = ((false, some (.precond "dbConfig missing dsn")), (), []) :=
  ⟨rfl, (validateSQL_preconds "SELECT 1;" [] optsW dUnit ()).1 rfl⟩

lemma parseBlocksGo_plain :
    ∀ (xs : List String),
      (∀ s ∈ xs, isBeginMark s = false ∧ isEndMark s = false) →
      ∀ (blocks : List (List String)) (cur : List String) (inB : Bool)
        (rest : List String),
        parseBlocksGo blocks cur inB (xs ++ rest)
          = parseBlocksGo blocks (cur ++ xs) inB rest := by
  intro xs
  induction xs with
  | nil => intro _ blocks cur inB rest; simp
  | cons s xs ih =>
      intro h blocks cur inB rest
      have hs := h s (List.mem_cons_self s xs)
      simp only [List.cons_append, parseBlocksGo, hs.1, hs.2,
        Bool.false_eq_true, if_false, List.append_eq]
      rw [ih (fun t ht => h t (List.mem_cons_of_mem s ht)) blocks (cur ++ [s])
        inB rest, List.append_assoc]
      rfl

/-- C7 counterexample: two consecutive un-bracketed statements are grouped
into one block of two by the PostgreSQL `ParseBlocks`, not into two
singleton blocks as the claim states. -/
theorem parseBlocksPG_counterexample :
    ParseBlocksPG ["SELECT 1;", "SELECT 2;"] = .ok [["SELECT 1;", "SELECT 2;"]]
    ∧ ¬ ParseBlocksPG ["SELECT 1;", "SELECT 2;"]
        = .ok [["SELECT 1;"], ["SELECT 2;"]] := by
  constructor <;> decide

/-- C7 (amended): the PostgreSQL `ParseBlocks` groups every run of
statements between a BEGIN marker and a COMMIT/END/ROLLBACK marker into one
block, groups each maximal run of consecutive un-bracketed statements into
one block (not per-statement singletons), and raises hard errors for a
nested BEGIN, a COMMIT without BEGIN, and a trailing unterminated BEGIN; the
claim's five-statement example yields exactly its two stated blocks. -/
theorem parseBlocksPG_amended (b eM : String) (xs ys zs : List String)
    (hb : isBeginMark b = true) (he : isEndMark eM = true)
    (hxs : ∀ s ∈ xs, isBeginMark s = false ∧ isEndMark s = false)
    (hys : ∀ s ∈ ys, isBeginMark s = false ∧ isEndMark s = false)
    (hzs : ∀ s ∈ zs, isBeginMark s = false ∧ isEndMark s = false) :
    ParseBlocksPG (xs ++ [b] ++ ys ++ [eM] ++ zs)
      = .ok ((if xs.isEmpty then [] else [xs]) ++ [ys]
          ++ (if zs.isEmpty then [] else [zs]))
    ∧ (¬ xs = [] → ParseBlocksPG xs = .ok [xs])
    ∧ (∀ rest, ParseBlocksPG (xs ++ [b] ++ ys ++ [b] ++ rest)
        = .error "nested BEGIN not allowed")
    ∧ (∀ rest, ParseBlocksPG (xs ++ [eM] ++ rest)
        = .error "COMMIT without BEGIN")
    ∧ ParseBlocksPG (xs ++ [b] ++ ys) = .error "unterminated BEGIN block"
    ∧ ParseBlocksPG ["BEGIN", "CREATE TABLE a(id int);",
        "INSERT INTO a VALUES(1);", "COMMIT", "SELECT 1;"]
      = .ok [["CREATE TABLE a(id int);", "INSERT INTO a VALUES(1);"],
             ["SELECT 1;"]] := by
  have hbe : isBeginMark eM = false := by
    by_contra hc
    have hc' : isBeginMark eM = true := by simpa using hc
    simp only [isBeginMark, decide_eq_true_eq] at hc'
    simp only [isEndMark, decide_eq_true_eq] at he
    rcases hc' with h | h | h <;> rw [h] at he <;> simp at he
  refine ⟨?_, ?_, ?_, ?_, ?_, by decide⟩
  · simp only [ParseBlocksPG, List.append_assoc, List.singleton_append,
      List.cons_append, List.nil_append]
    rw [parseBlocksGo_plain xs hxs [] [] false (b :: (ys ++ eM :: zs))]
    have s1 : parseBlocksGo [] ([] ++ xs) false (b :: (ys ++ eM :: zs))
        = parseBlocksGo (if xs.isEmpty then [] else [xs]) [] true
            (ys ++ eM :: zs) := by
      by_cases hxe : xs.isEmpty <;> simp [parseBlocksGo, hb, hxe]
    rw [s1, parseBlocksGo_plain ys hys _ [] true (eM :: zs)]
    have s2 : parseBlocksGo (if xs.isEmpty then [] else [xs]) ([] ++ ys) true
          (eM :: zs)
        = parseBlocksGo ((if xs.isEmpty then [] else [xs]) ++ [ys]) [] false
            zs := by
      simp [parseBlocksGo, hbe, he]
    rw [s2]
    have s3 := parseBlocksGo_plain zs hzs
      ((if xs.isEmpty then [] else [xs]) ++ [ys]) [] false []
    rw [List.append_nil] at s3
    rw [s3]
    by_cases hze : zs.isEmpty <;> by_cases hxe : xs.isEmpty <;>
      simp [parseBlocksGo, hze, hxe]
  · intro hne
    have hxe : xs.isEmpty = false := by simpa [List.isEmpty_iff] using hne
    simp only [ParseBlocksPG]
    have h := parseBlocksGo_plain xs hxs [] [] false []
    rw [List.append_nil] at h
    rw [h]
    simp [parseBlocksGo, hxe]
  · intro rest
    simp only [ParseBlocksPG, List.append_assoc, List.singleton_append,
      List.cons_append, List.nil_append]
    rw [parseBlocksGo_plain xs hxs [] [] false (b :: (ys ++ b :: rest))]
    have s1 : parseBlocksGo [] ([] ++ xs) false (b :: (ys ++ b :: rest))
        = parseBlocksGo (if xs.isEmpty then [] else [xs]) [] true
            (ys ++ b :: rest) := by
      by_cases hxe : xs.isEmpty <;> simp [parseBlocksGo, hb, hxe]
    rw [s1, parseBlocksGo_plain ys hys _ [] true (b :: rest)]
    simp [parseBlocksGo, hb]
  · intro rest
    simp only [ParseBlocksPG, List.append_assoc, List.singleton_append,
      List.cons_append, List.nil_append]
    rw [parseBlocksGo_plain xs hxs [] [] false (eM :: rest)]
    simp [parseBlocksGo, hbe, he]
  · simp only [ParseBlocksPG, List.append_assoc, List.singleton_append,
      List.cons_append, List.nil_append]
    rw [parseBlocksGo_plain xs hxs [] [] false (b :: ys)]
    have s1 : parseBlocksGo [] ([] ++ xs) false (b :: ys)
        = parseBlocksGo (if xs.isEmpty then [] else [xs]) [] true ys := by
      by_cases hxe : xs.isEmpty <;> simp [parseBlocksGo, hb, hxe]
    rw [s1]
    have h := parseBlocksGo_plain ys hys
      (if xs.isEmpty then [] else [xs]) [] true []
    rw [List.append_nil] at h
    rw [h]
    simp [parseBlocksGo]

/-- Witness for C7 (amended): instantiating the grouping clause at the
claim's example (no leading run, two bracketed statements, one trailing
statement) produces exactly the two stated blocks. -/
theorem parseBlocksPG_amended_witness :
    (isBeginMark "BEGIN" = true ∧ isEndMark "COMMIT" = true)
    ∧ ParseBlocksPG (([] : List String) ++ ["BEGIN"]
        ++ ["CREATE TABLE a(id int);", "INSERT INTO a VALUES(1);"]
        ++ ["COMMIT"] ++ ["SELECT 1;"])
      = .ok ((if ([] : List String).isEmpty then [] else [([] : List String)])
          ++ [["CREATE TABLE a(id int);", "INSERT INTO a VALUES(1);"]]
          ++ (if (["SELECT 1;"] : List String).isEmpty then []
              else [["SELECT 1;"]])) := by
  refine ⟨⟨by decide, by decide⟩, ?_⟩
  exact (parseBlocksPG_amended "BEGIN" "COMMIT" []
    ["CREATE TABLE a(id int);", "INSERT INTO a VALUES(1);"] ["SELECT 1;"]
    (by decide) (by decide) (by decide) (by decide) (by decide)).1

lemma splitRun_fuel :
    ∀ (fuel fuel' : Nat) (m : SplitMode) (buf input : List Char),
      input.length ≤ fuel → input.length ≤ fuel' →
      splitRun fuel m buf input = splitRun fuel' m buf input := by
  intro fuel
  induction fuel with
  | zero =>
      intro fuel' m buf input h _
      have hi : input = [] := by
        cases input with
        | nil => rfl
        | cons c r => simp at h
      subst hi
      simp [splitRun]
  | succ f ih =>
      intro fuel' m buf input h h'
      cases input with
      | nil => simp [splitRun]
      | cons c r =>
          obtain ⟨f', rfl⟩ : ∃ f', fuel' = f' + 1 := by
            cases fuel' with
            | zero => simp at h'
            | succ k => exact ⟨k, rfl⟩
          have hr : r.length ≤ f := by simp at h; omega
          have hr' : r.length ≤ f' := by simp at h'; omega
          have hlt : r.tail.length = r.length - 1 := List.length_tail r
          cases m with
          | lineComment => simp only [splitRun]; exact ih f' _ _ _ hr hr'
          | blockComment =>
              simp only [splitRun]
              split_ifs with h1
              · exact ih f' _ _ _ (by omega) (by omega)
              · exact ih f' _ _ _ hr hr'
          | squote =>
              simp only [splitRun]
              split_ifs with h1 h2
              · exact ih f' _ _ _ (by omega) (by omega)
              · exact ih f' _ _ _ hr hr'
              · exact ih f' _ _ _ hr hr'
          | dquote =>
              simp only [splitRun]
              split_ifs with h1 h2
              · exact ih f' _ _ _ (by omega) (by omega)
              · exact ih f' _ _ _ hr hr'
              · exact ih f' _ _ _ hr hr'
          | dollar tag =>
              simp only [splitRun]
              split_ifs with h1
              · refine ih f' _ _ _ ?_ ?_ <;> simp [List.length_drop] <;> omega
              · exact ih f' _ _ _ hr hr'
          | normal =>
              simp only [splitRun]
              split_ifs with h1 h2 h3 h4 h5 h6
              · exact ih f' _ _ _ (by omega) (by omega)
              · exact ih f' _ _ _ (by omega) (by omega)
              · exact ih f' _ _ _ hr hr'
              · exact ih f' _ _ _ hr hr'
              · refine ih f' _ _ _ ?_ ?_ <;> simp [List.length_drop] <;> omega
              · congr 1; exact ih f' _ _ _ hr hr'
              · exact ih f' _ _ _ hr hr'

lemma splitRun_eq_splitGo (fuel : Nat) (m : SplitMode) (buf input : List Char)
    (h : input.length ≤ fuel) : splitRun fuel m buf input = splitGo m buf input :=
  splitRun_fuel fuel input.length m buf input h (le_refl _)

lemma plainChar_spec (c : Char) (h : plainChar c = true) :
    ¬ c = '-' ∧ ¬ c = '/' ∧ ¬ c = squoteChar ∧ ¬ c = '"' ∧ ¬ c = '$' ∧
      ¬ c = ';' := by
  simp only [plainChar, decide_eq_true_eq] at h
  push_neg at h
  exact h

lemma splitGo_plain :
    ∀ (p : List Char), (∀ c ∈ p, plainChar c = true) →
      ∀ (buf rest : List Char),
        splitGo .normal buf (p ++ rest) = splitGo .normal (buf ++ p) rest := by
  intro p
  induction p with
  | nil => intro _ buf rest; simp [splitGo]
  | cons c p ih =>
      intro h buf rest
      obtain ⟨h1, h2, h3, h4, h5, h6⟩ :=
        plainChar_spec c (h c (List.mem_cons_self c p))
      show splitRun ((p ++ rest).length + 1) .normal buf (c :: (p ++ rest)) = _
      simp only [splitRun]
      rw [if_neg (fun hx => h1 hx.1), if_neg (fun hx => h2 hx.1), if_neg h3,
        if_neg h4, if_neg (fun hx => h5 hx.1), if_neg h6]
      rw [show splitRun (p ++ rest).length .normal (buf ++ [c]) (p ++ rest)
          = splitGo .normal (buf ++ [c]) (p ++ rest) from rfl]
      rw [ih (fun t ht => h t (List.mem_cons_of_mem c ht)) (buf ++ [c]) rest,
        List.append_assoc]
      rfl

lemma splitGo_semicolon (buf rest : List Char) :
    splitGo .normal buf (';' :: rest)
      = flushStmt buf ++ splitGo .normal [] rest := by
  show splitRun (rest.length + 1) .normal buf (';' :: rest) = _
  simp only [splitRun]
  simp [splitGo, nextChar, show ¬((';' : Char) = '-') from by decide,
    show ¬((';' : Char) = '/') from by decide,
    show ¬((';' : Char) = squoteChar) from by decide,
    show ¬((';' : Char) = '-') from by decide,
    show ¬((';' : Char) = '$') from by decide]

lemma splitGo_squote_open (buf rest : List Char) :
    splitGo .normal buf (squoteChar :: rest)
      = splitGo .squote (buf ++ [squoteChar]) rest := by
  show splitRun (rest.length + 1) .normal buf (squoteChar :: rest) = _
  simp only [splitRun]
  simp [splitGo, show ¬(squoteChar = '-') from by decide,
    show ¬(squoteChar = '/') from by decide]

lemma splitGo_squote_run :
    ∀ (q : List Char), squoteChar ∉ q →
      ∀ (buf rest : List Char),
        splitGo .squote buf (q ++ rest) = splitGo .squote (buf ++ q) rest := by
  intro q
  induction q with
  | nil => intro _ buf rest; simp [splitGo]
  | cons c q ih =>
      intro h buf rest
      have hc : ¬ c = squoteChar := fun hx => h (hx ▸ List.mem_cons_self c q)
      show splitRun ((q ++ rest).length + 1) .squote buf (c :: (q ++ rest)) = _
      simp only [splitRun]
      rw [if_neg hc]
      rw [show splitRun (q ++ rest).length .squote (buf ++ [c]) (q ++ rest)
          = splitGo .squote (buf ++ [c]) (q ++ rest) from rfl]
      rw [ih (fun ht => h (List.mem_cons_of_mem c ht)) (buf ++ [c]) rest,
        List.append_assoc]
      rfl

lemma splitGo_squote_close (c2 : Char) (hc2 : ¬ c2 = squoteChar)
    (buf rest : List Char) :
    splitGo .squote buf (squoteChar :: c2 :: rest)
      = splitGo .normal (buf ++ [squoteChar]) (c2 :: rest) := by
  show splitRun ((c2 :: rest).length + 1) .squote buf (squoteChar :: c2 :: rest)
      = _
  simp only [splitRun]
  simp [splitGo, nextChar, hc2, splitRun]

lemma splitGo_dquote_open (buf rest : List Char) :
    splitGo .normal buf ('"' :: rest)
      = splitGo .dquote (buf ++ ['"']) rest := by
  show splitRun (rest.length + 1) .normal buf ('"' :: rest) = _
  simp only [splitRun]
  simp [splitGo, show ¬(('"' : Char) = '-') from by decide,
    show ¬(('"' : Char) = '/') from by decide,
    show ¬(('"' : Char) = squoteChar) from by decide]

lemma splitGo_dquote_run :
    ∀ (q : List Char), '"' ∉ q →
      ∀ (buf rest : List Char),
        splitGo .dquote buf (q ++ rest) = splitGo .dquote (buf ++ q) rest := by
  intro q
  induction q with
  | nil => intro _ buf rest; simp [splitGo]
  | cons c q ih =>
      intro h buf rest
      have hc : ¬ c = '"' := fun hx => h (hx ▸ List.mem_cons_self c q)
      show splitRun ((q ++ rest).length + 1) .dquote buf (c :: (q ++ rest)) = _
      simp only [splitRun]
      rw [if_neg hc]
      rw [show splitRun (q ++ rest).length .dquote (buf ++ [c]) (q ++ rest)
          = splitGo .dquote (buf ++ [c]) (q ++ rest) from rfl]
      rw [ih (fun ht => h (List.mem_cons_of_mem c ht)) (buf ++ [c]) rest,
        List.append_assoc]
      rfl

lemma splitGo_dquote_close (c2 : Char) (hc2 : ¬ c2 = '"')
    (buf rest : List Char) :
    splitGo .dquote buf ('"' :: c2 :: rest)
      = splitGo .normal (buf ++ ['"']) (c2 :: rest) := by
  show splitRun ((c2 :: rest).length + 1) .dquote buf ('"' :: c2 :: rest) = _
  simp only [splitRun]
  simp [splitGo, nextChar, hc2, splitRun]

lemma splitGo_line_open (buf rest : List Char) :
    splitGo .normal buf ('-' :: '-' :: rest)
      = splitGo .lineComment (buf ++ ['-', '-']) rest := by
  show splitRun ((('-' : Char) :: rest).length + 1) .normal buf
      ('-' :: '-' :: rest) = _
  simp only [splitRun]
  simp only [nextChar, List.head?_cons, Option.getD_some, List.tail_cons,
    and_self, if_true]
  exact splitRun_eq_splitGo _ _ _ _ (by simp)

lemma splitGo_line_run :
    ∀ (cmt : List Char), '\n' ∉ cmt →
      ∀ (buf rest : List Char),
        splitGo .lineComment buf (cmt ++ rest)
          = splitGo .lineComment (buf ++ cmt) rest := by
  intro cmt
  induction cmt with
  | nil => intro _ buf rest; simp [splitGo]
  | cons c q ih =>
      intro h buf rest
      have hc : ¬ c = '\n' := fun hx => h (hx ▸ List.mem_cons_self c q)
      show splitRun ((q ++ rest).length + 1) .lineComment buf
          (c :: (q ++ rest)) = _
      simp only [splitRun]
      rw [if_neg hc]
      rw [show splitRun (q ++ rest).length .lineComment (buf ++ [c]) (q ++ rest)
          = splitGo .lineComment (buf ++ [c]) (q ++ rest) from rfl]
      rw [ih (fun ht => h (List.mem_cons_of_mem c ht)) (buf ++ [c]) rest,
        List.append_assoc]
      rfl

lemma splitGo_line_close (buf rest : List Char) :
    splitGo .lineComment buf ('\n' :: rest)
      = splitGo .normal (buf ++ ['\n']) rest := by
  show splitRun (rest.length + 1) .lineComment buf ('\n' :: rest) = _
  simp only [splitRun]
  simp [splitGo]

lemma splitGo_block_open (buf rest : List Char) :
    splitGo .normal buf ('/' :: '*' :: rest)
      = splitGo .blockComment (buf ++ ['/', '*']) rest := by
  show splitRun ((('*' : Char) :: rest).length + 1) .normal buf
      ('/' :: '*' :: rest) = _
  simp only [splitRun]
  rw [if_neg (fun hx => absurd hx.1 (by decide))]
  simp only [nextChar, List.head?_cons, Option.getD_some, List.tail_cons,
    and_self, if_true]
  exact splitRun_eq_splitGo _ _ _ _ (by simp)

lemma splitGo_block_run :
    ∀ (cmt : List Char), '*' ∉ cmt →
      ∀ (buf rest : List Char),
        splitGo .blockComment buf (cmt ++ rest)
          = splitGo .blockComment (buf ++ cmt) rest := by
  intro cmt
  induction cmt with
  | nil => intro _ buf rest; simp [splitGo]
  | cons c q ih =>
      intro h buf rest
      have hc : ¬ c = '*' := fun hx => h (hx ▸ List.mem_cons_self c q)
      show splitRun ((q ++ rest).length + 1) .blockComment buf
          (c :: (q ++ rest)) = _
      simp only [splitRun]
      rw [if_neg (fun hx => hc hx.1)]
      rw [show splitRun (q ++ rest).length .blockComment (buf ++ [c])
          (q ++ rest) = splitGo .blockComment (buf ++ [c]) (q ++ rest) from rfl]
      rw [ih (fun ht => h (List.mem_cons_of_mem c ht)) (buf ++ [c]) rest,
        List.append_assoc]
      rfl

lemma splitGo_block_close (buf rest : List Char) :
    splitGo .blockComment buf ('*' :: '/' :: rest)
      = splitGo .normal (buf ++ ['*', '/']) rest := by
  show splitRun ((('/' : Char) :: rest).length + 1) .blockComment buf
      ('*' :: '/' :: rest) = _
  simp only [splitRun]
  simp only [nextChar, List.head?_cons, Option.getD_some, List.tail_cons,
    and_self, if_true]
  exact splitRun_eq_splitGo _ _ _ _ (by simp)

lemma takeWhile_word_prefix :
    ∀ (w : List Char), (∀ c ∈ w, ¬ c = '$') → ∀ (l : List Char),
      (w ++ '$' :: l).takeWhile (fun ch => ch ≠ '$') = w := by
  intro w
  induction w with
  | nil => intro _ l; simp [List.takeWhile_cons]
  | cons c w ih =>
      intro h l
      have hc := h c (List.mem_cons_self c w)
      have ih' := ih (fun t ht => h t (List.mem_cons_of_mem c ht)) l
      simp only [List.cons_append, List.takeWhile_cons, decide_not] at ih' ⊢
      simp [hc, ih']

lemma wordChar_ne_dollar (w : List Char) (hw : ∀ c ∈ w, wordChar c = true) :
    ∀ c ∈ w, ¬ c = '$' := by
  intro c hc hx
  have := hw c hc
  rw [hx] at this
  simp [wordChar] at this

lemma splitGo_dollar_open (w : List Char) (hw : ∀ c ∈ w, wordChar c = true)
    (buf rest : List Char) :
    splitGo .normal buf ('$' :: (w ++ '$' :: rest))
      = splitGo (.dollar ('$' :: w ++ ['$'])) (buf ++ '$' :: w ++ ['$'])
          rest := by
  have htw : (w ++ '$' :: rest).takeWhile (fun ch => ch ≠ '$') = w :=
    takeWhile_word_prefix w (wordChar_ne_dollar w hw) rest
  show splitRun ((w ++ '$' :: rest).length + 1) .normal buf
      ('$' :: (w ++ '$' :: rest)) = _
  simp only [splitRun]
  rw [if_neg (fun hx => absurd hx.1 (by decide)),
    if_neg (fun hx => absurd hx.1 (by decide)), if_neg (by decide),
    if_neg (by decide), htw]
  rw [if_pos ⟨trivial, by simpa [List.all_eq_true] using hw,
    by rw [List.drop_left]; rfl⟩]
  have hdrop : (w ++ '$' :: rest).drop (w.length + 1) = rest := by
    rw [show w ++ '$' :: rest = (w ++ ['$']) ++ rest by simp,
      show w.length + 1 = (w ++ ['$']).length by simp]
    exact List.drop_left _ _
  rw [hdrop]
  exact splitRun_eq_splitGo _ _ _ _ (by simp; omega)

lemma splitGo_dollar_run (t : List Char) :
    ∀ (bdy : List Char), '$' ∉ bdy →
      ∀ (buf rest : List Char),
        splitGo (.dollar ('$' :: t)) buf (bdy ++ rest)
          = splitGo (.dollar ('$' :: t)) (buf ++ bdy) rest := by
  intro bdy
  induction bdy with
  | nil => intro _ buf rest; simp [splitGo]
  | cons c q ih =>
      intro h buf rest
      have hc : ¬ c = '$' := fun hx => h (hx ▸ List.mem_cons_self c q)
      show splitRun ((q ++ rest).length + 1) (.dollar ('$' :: t)) buf
          (c :: (q ++ rest)) = _
      simp only [splitRun]
      rw [if_neg (by
        simp only [List.isPrefixOf_cons₂, Bool.and_eq_true, beq_iff_eq]
        exact fun hx => hc hx.1.symm)]
      rw [show splitRun (q ++ rest).length (.dollar ('$' :: t)) (buf ++ [c])
          (q ++ rest) = splitGo (.dollar ('$' :: t)) (buf ++ [c]) (q ++ rest)
          from rfl]
      rw [ih (fun ht => h (List.mem_cons_of_mem c ht)) (buf ++ [c]) rest,
        List.append_assoc]
      rfl

lemma splitGo_dollar_close (t : List Char) (buf rest : List Char) :
    splitGo (.dollar ('$' :: t)) buf ('$' :: (t ++ rest))
      = splitGo .normal (buf ++ '$' :: '$' :: t) rest := by
  show splitRun ((t ++ rest).length + 1) (.dollar ('$' :: t)) buf
      ('$' :: (t ++ rest)) = _
  simp only [splitRun]
  rw [if_pos (List.isPrefixOf_iff_prefix.mpr
    (show ('$' :: t) <+: ('$' :: (t ++ rest)) from
      List.prefix_append ('$' :: t) rest))]
  have hdrop : (t ++ rest).drop (('$' :: t).length - 1) = rest := by
    simp only [List.length_cons, Nat.add_sub_cancel]
    exact List.drop_left _ _
  rw [hdrop]
  exact splitRun_eq_splitGo _ _ _ _ (by simp)

lemma mem_dropWhile_of_mem (p : Char → Bool) :
    ∀ (l : List Char) (c : Char), c ∈ l → p c = false →
      c ∈ l.dropWhile p := by
  intro l
  induction l with
  | nil => intro c hc; simp at hc
  | cons a l ih =>
      intro c hc hpc
      rw [List.dropWhile_cons]
      by_cases hpa : p a = true
      · rw [if_pos hpa]
        rcases List.mem_cons.mp hc with h | h
        · rw [h] at hpc; rw [hpc] at hpa; cases hpa
        · exact ih c h hpc
      · rw [if_neg hpa]
        exact hc

lemma trimChars_ne_nil (l : List Char) (c : Char) (hc : c ∈ l)
    (hw : c.isWhitespace = false) : ¬ trimChars l = [] := by
  intro h
  simp only [trimChars, List.reverse_eq_nil_iff] at h
  have h2 := List.dropWhile_eq_nil_iff.mp h
  have h3 : c ∈ l.dropWhile Char.isWhitespace :=
    mem_dropWhile_of_mem _ l c hc hw
  have h4 := h2 c (List.mem_reverse.mpr h3)
  rw [hw] at h4
  cases h4

lemma flushStmt_of_mem (buf : List Char) (c : Char) (hc : c ∈ buf)
    (hw : c.isWhitespace = false) :
    flushStmt buf = [String.mk (trimChars buf)] := by
  have h := trimChars_ne_nil buf c hc hw
  simp only [flushStmt]
  rw [if_neg (by simpa [List.isEmpty_iff] using h)]

/-- C8: `GenericSplit` never splits at a semicolon inside a dollar-quoted
section — the whole section, body included, lands inside one single
statement — and likewise never splits at semicolons inside single-quoted
strings, double-quoted identifiers, line comments, or block comments; in
each clause the context (and any semicolons it contains) is followed by a
terminating semicolon and the remainder of the input is split
independently. -/
theorem genericSplit_contexts :
    (∀ (pre w bdy post : List Char),
      (∀ c ∈ pre, plainChar c = true) →
      (∀ c ∈ w, wordChar c = true) →
      '$' ∉ bdy →
      GenericSplit (String.mk
          (pre ++ '$' :: (w ++ '$' :: (bdy ++ '$' :: (w ++ '$' :: ';' :: post)))))
        = String.mk (trimChars
              (pre ++ '$' :: (w ++ '$' :: (bdy ++ '$' :: '$' :: (w ++ ['$'])))))
            :: splitGo .normal [] post)
    ∧ (∀ (pre q post : List Char),
      (∀ c ∈ pre, plainChar c = true) →
      squoteChar ∉ q →
      GenericSplit (String.mk
          (pre ++ squoteChar :: (q ++ squoteChar :: ';' :: post)))
        = String.mk (trimChars (pre ++ squoteChar :: (q ++ [squoteChar])))
            :: splitGo .normal [] post)
    ∧ (∀ (pre q post : List Char),
      (∀ c ∈ pre, plainChar c = true) →
      '"' ∉ q →
      GenericSplit (String.mk (pre ++ '"' :: (q ++ '"' :: ';' :: post)))
        = String.mk (trimChars (pre ++ '"' :: (q ++ ['"'])))
            :: splitGo .normal [] post)
    ∧ (∀ (pre cmt post : List Char),
      (∀ c ∈ pre, plainChar c = true) →
      '\n' ∉ cmt →
      GenericSplit (String.mk
          (pre ++ '-' :: '-' :: (cmt ++ '\n' :: ';' :: post)))
        = String.mk (trimChars (pre ++ '-' :: '-' :: (cmt ++ ['\n'])))
            :: splitGo .normal [] post)
    ∧ (∀ (pre bc post : List Char),
      (∀ c ∈ pre, plainChar c = true) →
      '*' ∉ bc →
      GenericSplit (String.mk
          (pre ++ '/' :: '*' :: (bc ++ '*' :: '/' :: ';' :: post)))
        = String.mk (trimChars (pre ++ '/' :: '*' :: (bc ++ ['*', '/'])))
            :: splitGo .normal [] post) := by
  refine ⟨?_, ?_, ?_, ?_, ?_⟩
  · intro pre w bdy post hpre hw hbdy
    show splitGo .normal []
      (pre ++ '$' :: (w ++ '$' :: (bdy ++ '$' :: (w ++ '$' :: ';' :: post)))) = _
    rw [splitGo_plain pre hpre, splitGo_dollar_open w hw]
    simp only [List.cons_append, List.nil_append]
    rw [splitGo_dollar_run (w ++ ['$']) bdy hbdy,
      show w ++ '$' :: ';' :: post = (w ++ ['$']) ++ ';' :: post by simp,
      splitGo_dollar_close (w ++ ['$']), splitGo_semicolon]
    rw [flushStmt_of_mem _ '$' (by simp) (by decide)]
    simp [List.append_assoc]
  · intro pre q post hpre hq
    show splitGo .normal []
      (pre ++ squoteChar :: (q ++ squoteChar :: ';' :: post)) = _
    rw [splitGo_plain pre hpre, splitGo_squote_open,
      splitGo_squote_run q hq,
      splitGo_squote_close ';' (by decide), splitGo_semicolon]
    rw [flushStmt_of_mem _ squoteChar (by simp) (by decide)]
    simp [List.append_assoc]
  · intro pre q post hpre hq
    show splitGo .normal [] (pre ++ '"' :: (q ++ '"' :: ';' :: post)) = _
    rw [splitGo_plain pre hpre, splitGo_dquote_open,
      splitGo_dquote_run q hq,
      splitGo_dquote_close ';' (by decide), splitGo_semicolon]
    rw [flushStmt_of_mem _ '"' (by simp) (by decide)]
    simp [List.append_assoc]
  · intro pre cmt post hpre hcmt
    show splitGo .normal []
      (pre ++ '-' :: '-' :: (cmt ++ '\n' :: ';' :: post)) = _
    rw [splitGo_plain pre hpre, splitGo_line_open,
      splitGo_line_run cmt hcmt,
      splitGo_line_close, splitGo_semicolon]
    rw [flushStmt_of_mem _ '-' (by simp) (by decide)]
    simp [List.append_assoc]
  · intro pre bc post hpre hbc
    show splitGo .normal []
      (pre ++ '/' :: '*' :: (bc ++ '*' :: '/' :: ';' :: post)) = _
    rw [splitGo_plain pre hpre, splitGo_block_open,
      splitGo_block_run bc hbc,
      splitGo_block_close, splitGo_semicolon]
    rw [flushStmt_of_mem _ '/' (by simp) (by decide)]
    simp [List.append_assoc]

/-- Witness for C8: a `DO $$ ... $$;` script whose dollar-quoted body
contains a semicolon is returned as one single statement followed by the
independently split tail. -/
theorem genericSplit_contexts_witness :
    ((∀ c ∈ "DO ".data, plainChar c = true) ∧ ('$' : Char) ∉ " BEGIN x; END ".data)
    ∧ GenericSplit (String.mk ("DO ".data ++ '$' ::
          (([] : List Char) ++ '$' :: (" BEGIN x; END ".data ++ '$' ::
            (([] : List Char) ++ '$' :: ';' :: "SELECT 3;".data)))))
        = String.mk (trimChars ("DO ".data ++ '$' ::
              (([] : List Char) ++ '$' :: (" BEGIN x; END ".data ++ '$' :: '$' ::
                (([] : List Char) ++ ['$'])))))
            :: splitGo .normal [] ("SELECT 3;".data) :=
  ⟨⟨by decide, by decide⟩,
    genericSplit_contexts.1 "DO ".data [] " BEGIN x; END ".data "SELECT 3;".data
      (by decide) (by decide) (by decide)⟩

end KaeshiMigrate
